import Mathlib

/-!
Verification of the Monument composition-search engine's graph layer.

Each section below is a shallow embedding of one part of the Rust source:

* `MonumentSize`   — `Size` and its componentwise `PartialOrd`, and the
  optimisation driver `Graph::optimise_with_iter_limit`
  (`src/graph/src/graph.rs`).
* `MonumentPred`   — the predecessor-linking phase of `Graph::from_layout`
  (`src/graph/src/graph.rs`).
* `MonumentStrip`  — the `strip_refs` optimisation pass
  (`src/graph/src/optimise/strip_refs.rs`).
* `MonumentSeg`    — `Layout::get_segment` (`src/graph/src/layout/mod.rs`).
* `MonumentBuild`  — the Dijkstra loop of `build_graph`
  (`src/graph/src/graph.rs`).
* `MonumentOld`    — the older prototype graph: `remove_nodes_by_distance`,
  `sort_successors` (`src/.old/monument/src/graph/mod.rs`) and
  `PtrGraph::from_prototype` (`src/.old/monument/src/compose/graph.rs`).
* `MonumentQuery`  — the length cap computed by `Query::unoptimised_graph`
  (`src/monument/src/lib.rs`).

External ringing-algebra primitives (rows, masks, permutation products) are
opaque library types in the source and are modelled as type parameters or
function-valued fields here.  Machine integers are modelled as `Nat`; the one
place where overflow semantics matter (`Query::unoptimised_graph`) uses an
explicit checked subtraction.  Functions that can panic are modelled as
`Option`-valued, with `none` standing for the panic.
-/

namespace MonumentSize

/-- A measure of the `Size` of a `Graph`, from `struct Size` in
`src/graph/src/graph.rs`.  Used to detect when further optimisations are not
useful. -/
structure Size where
  num_nodes : Nat
  num_links : Nat
  num_starts : Nat
  num_ends : Nat
deriving DecidableEq, Repr

/-- `<Size as PartialOrd>::partial_cmp` from `src/graph/src/graph.rs`: compare
all four components; `Less`/`Greater` when at least one component moved in that
direction and none moved the other way, `Equal` when all are equal, and `none`
(incomparable) when some components shrank and others grew. -/
def sizeCmp (s other : Size) : Option Ordering :=
  let cmp_nodes := compare s.num_nodes other.num_nodes
  let cmp_links := compare s.num_links other.num_links
  let cmp_starts := compare s.num_starts other.num_starts
  let cmp_ends := compare s.num_ends other.num_ends
  let all_comparisons := [cmp_nodes, cmp_links, cmp_starts, cmp_ends]
  let are_any_less := all_comparisons.any (fun c => c == Ordering.lt)
  let are_any_greater := all_comparisons.any (fun c => c == Ordering.gt)
  match are_any_less, are_any_greater with
  | true, false => some Ordering.lt
  | false, true => some Ordering.gt
  | false, false => some Ordering.eq
  | true, true => none

/-- The loop body of `Graph::optimise_with_iter_limit`
(`src/graph/src/graph.rs`): up to `limit` sweeps of `run_passes`; after each
sweep the new size is compared against the previous one and the loop returns on
`Equal` or `Greater`.  The graph is abstracted to a type `G`, `run_passes` and
`Size::from` to functions on it.  The second component of the result counts
performed sweeps (observable in the Rust source as the number of
`run_passes` calls). -/
def optimiseLoop {G : Type _} (runPasses : G → G) (size : G → Size) :
    Nat → G → Size → G × Nat
  | 0, g, _ => (g, 0)
  | Nat.succ limit, g, lastSize =>
    let g' := runPasses g
    let newSize := size g'
    match sizeCmp newSize lastSize with
    | some Ordering.eq => (g', 1)
    | some Ordering.gt => (g', 1)
    | _ =>
      let r := optimiseLoop runPasses size limit g' newSize
      (r.1, r.2 + 1)

/-- `Graph::optimise_with_iter_limit` (`src/graph/src/graph.rs`): initialises
`last_size` from the graph before the first sweep. -/
def optimiseWithIterLimit {G : Type _} (runPasses : G → G) (size : G → Size)
    (g : G) (limit : Nat) : G × Nat :=
  optimiseLoop runPasses size limit g (size g)

/-- `Graph::optimise` (`src/graph/src/graph.rs`): iteration limit 20. -/
def optimise {G : Type _} (runPasses : G → G) (size : G → Size) : G → G × Nat :=
  fun g => optimiseWithIterLimit runPasses size g 20

/-- At least one component of `s` is strictly smaller than in `o`. -/
def anyLt (s o : Size) : Prop :=
  s.num_nodes < o.num_nodes ∨ s.num_links < o.num_links ∨
    s.num_starts < o.num_starts ∨ s.num_ends < o.num_ends

instance (s o : Size) : Decidable (anyLt s o) := by unfold anyLt; infer_instance

lemma compare_beq_lt (a b : Nat) : (compare a b == Ordering.lt) = decide (a < b) := by
  rcases Nat.lt_trichotomy a b with h | h | h
  · rw [Nat.compare_eq_lt.mpr h, decide_eq_true h]; rfl
  · subst h; rw [Nat.compare_eq_eq.mpr rfl, decide_eq_false (lt_irrefl a)]; rfl
  · rw [Nat.compare_eq_gt.mpr h, decide_eq_false (Nat.lt_asymm h)]; rfl

lemma compare_beq_gt (a b : Nat) : (compare a b == Ordering.gt) = decide (b < a) := by
  rcases Nat.lt_trichotomy a b with h | h | h
  · rw [Nat.compare_eq_lt.mpr h, decide_eq_false (Nat.lt_asymm h)]; rfl
  · subst h; rw [Nat.compare_eq_eq.mpr rfl, decide_eq_false (lt_irrefl a)]; rfl
  · rw [Nat.compare_eq_gt.mpr h, decide_eq_true h]; rfl

lemma sizeCmp_def (s o : Size) :
    sizeCmp s o =
      match decide (anyLt s o), decide (anyLt o s) with
      | true, false => some Ordering.lt
      | false, true => some Ordering.gt
      | false, false => some Ordering.eq
      | true, true => none := by
  unfold sizeCmp anyLt
  simp only [List.any_cons, List.any_nil, Bool.or_false, compare_beq_lt, compare_beq_gt,
    Bool.decide_or]

lemma anyLt_irrefl (s : Size) : ¬ anyLt s s := by simp [anyLt]

lemma not_anyLt_both_iff (s o : Size) : (¬ anyLt s o ∧ ¬ anyLt o s) ↔ s = o := by
  cases s; cases o
  simp only [anyLt, Size.mk.injEq, not_or]
  omega

/-- C4: `Graph::optimise_with_iter_limit` performs at most `limit` sweeps
(`Graph::optimise` uses `limit = 20`), and returns as soon as a sweep's size
4-tuple compares `Equal` or `Greater` to the previous sweep's under the
componentwise order of `Size::partial_cmp`: `Less` exactly when some component
strictly decreased and none increased, `Greater` exactly when some increased
and none decreased, `Equal` exactly when all components are equal, and
incomparable sizes (`None`: some smaller, some larger) let the loop continue —
on `Less` or `None` the loop performs another sweep (fourth conjunct). -/
theorem optimise_with_iter_limit_spec {G : Type _} (runPasses : G → G) (size : G → Size) :
    (∀ (g : G) (limit : Nat) (lastSize : Size),
        (optimiseLoop runPasses size limit g lastSize).2 ≤ limit) ∧
    (∀ s o : Size,
        (sizeCmp s o = some Ordering.lt ↔ anyLt s o ∧ ¬ anyLt o s) ∧
        (sizeCmp s o = some Ordering.gt ↔ anyLt o s ∧ ¬ anyLt s o) ∧
        (sizeCmp s o = some Ordering.eq ↔ s = o) ∧
        (sizeCmp s o = none ↔ anyLt s o ∧ anyLt o s)) ∧
    (∀ (g : G) (limit : Nat),
        (sizeCmp (size (runPasses g)) (size g) = some Ordering.eq ∨
          sizeCmp (size (runPasses g)) (size g) = some Ordering.gt) →
        optimiseWithIterLimit runPasses size g (limit + 1) = (runPasses g, 1)) ∧
    (∀ (g : G) (limit : Nat) (lastSize : Size),
        (sizeCmp (size (runPasses g)) lastSize = some Ordering.lt ∨
          sizeCmp (size (runPasses g)) lastSize = none) →
        optimiseLoop runPasses size (limit + 1) g lastSize =
          ((optimiseLoop runPasses size limit (runPasses g) (size (runPasses g))).1,
            (optimiseLoop runPasses size limit (runPasses g) (size (runPasses g))).2 + 1)) ∧
    (∀ g : G, optimise runPasses size g = optimiseWithIterLimit runPasses size g 20) := by
  refine ⟨?_, ?_, ?_, ?_, fun _ => rfl⟩
  · intro g limit lastSize
    induction limit generalizing g lastSize with
    | zero => simp [optimiseLoop]
    | succ n ih =>
      simp only [optimiseLoop]
      split
      · exact Nat.le_add_left 1 n
      · exact Nat.le_add_left 1 n
      · exact Nat.succ_le_succ (ih _ _)
  · intro s o
    have hd := sizeCmp_def s o
    by_cases h1 : anyLt s o
    · by_cases h2 : anyLt o s
      · rw [decide_eq_true h1, decide_eq_true h2] at hd
        have hne : s ≠ o := fun he => absurd (he ▸ h1) (anyLt_irrefl o)
        simp [hd, h1, h2, hne]
      · rw [decide_eq_true h1, decide_eq_false h2] at hd
        have hne : s ≠ o := fun he => absurd (he ▸ h1) (anyLt_irrefl o)
        simp [hd, h1, h2, hne]
    · by_cases h2 : anyLt o s
      · rw [decide_eq_false h1, decide_eq_true h2] at hd
        have hne : s ≠ o := fun he => absurd (he ▸ h2) (anyLt_irrefl o)
        simp [hd, h1, h2, hne]
      · rw [decide_eq_false h1, decide_eq_false h2] at hd
        have he : s = o := (not_anyLt_both_iff s o).mp ⟨h1, h2⟩
        subst he
        simp [hd, anyLt_irrefl]
  · intro g limit h
    rcases h with h | h <;> simp [optimiseWithIterLimit, optimiseLoop, h]
  · intro g limit lastSize h
    rcases h with h | h <;> simp [optimiseLoop, h]

/-- Witness for `optimise_with_iter_limit_spec`: a one-sweep fixed point stops
after exactly one sweep even with iteration budget left. -/
theorem optimise_with_iter_limit_spec_witness :
    optimiseWithIterLimit (fun n : Nat => n) (fun n => ⟨n, 0, 0, 0⟩) 5 3 = (5, 1) := by
  have h := optimise_with_iter_limit_spec (G := Nat) (fun n => n) (fun n => ⟨n, 0, 0, 0⟩)
  exact h.2.2.1 5 2 (Or.inl (by decide))

end MonumentSize

namespace MonumentStrip

/-!
Embedding of `strip_refs` (`src/graph/src/optimise/strip_refs.rs`).  In that
file successor and predecessor entries are `(link_idx, id)` pairs and node ids
are an opaque hashable type; node ids are abstracted to a type `ι` with
decidable equality.  The `HashMap` of nodes is modelled as an association
list. -/

variable {ι : Type _} [DecidableEq ι]

/-- A graph node as used by `strip_refs`: successor/predecessor links are
`(link_idx, target id)` pairs and falseness entries are plain ids.  Fields of
`Node` that `strip_refs` neither reads nor writes are not modelled. -/
structure NodeS (ι : Type _) where
  successors : List (Nat × ι)
  predecessors : List (Nat × ι)
  false_nodes : List ι
deriving DecidableEq, Repr

/-- The parts of `Graph` that `strip_refs` touches: the node map (association
list standing for the `HashMap`), and the start/end node lists. -/
structure GraphS (ι : Type _) where
  nodes : List (ι × NodeS ι)
  start_nodes : List ι
  end_nodes : List ι
deriving DecidableEq, Repr

/-- `strip_refs` (`src/graph/src/optimise/strip_refs.rs`): removes node
references which point to non-existent nodes.  This cannot fail (it is a total
function): start/end entries and successor/predecessor/falseness references
whose target id is absent from the node map are dropped; nothing else
changes. -/
def stripRefs (g : GraphS ι) : GraphS ι :=
  let node_ids := g.nodes.map Prod.fst
  { nodes := g.nodes.map (fun p => (p.1,
      { successors := p.2.successors.filter (fun l => node_ids.contains l.2),
        predecessors := p.2.predecessors.filter (fun l => node_ids.contains l.2),
        false_nodes := p.2.false_nodes.filter (fun id => node_ids.contains id) })),
    start_nodes := g.start_nodes.filter (fun id => node_ids.contains id),
    end_nodes := g.end_nodes.filter (fun id => node_ids.contains id) }

lemma stripRefs_ids (g : GraphS ι) :
    (stripRefs g).nodes.map Prod.fst = g.nodes.map Prod.fst := by
  simp [stripRefs, List.map_map, Function.comp_def]

lemma filter_self_idem {α : Type _} (p : α → Bool) (l : List α) :
    (l.filter p).filter p = l.filter p := by
  rw [List.filter_filter]
  exact List.filter_congr (fun a _ => Bool.and_self (p a))

/-- C9: the reference-stripping pass is idempotent — running `strip_refs`
twice yields exactly the same graph (same node map, same start/end lists, and
same per-node successor, predecessor and falseness lists) as running it once.
It is a total function in this embedding, so it never fails no matter how many
dangling references the input graph contains. -/
theorem stripRefs_idem (g : GraphS ι) : stripRefs (stripRefs g) = stripRefs g := by
  have hids := stripRefs_ids g
  conv_lhs => rw [stripRefs]
  rw [hids]
  simp only [stripRefs, GraphS.mk.injEq]
  refine And.intro ?_ (And.intro (filter_self_idem _ _) (filter_self_idem _ _))
  rw [List.map_map]
  refine List.map_congr_left (fun p _ => ?_)
  simp only [Function.comp_apply, Prod.mk.injEq, NodeS.mk.injEq]
  exact ⟨trivial, filter_self_idem _ _, filter_self_idem _ _, filter_self_idem _ _⟩

end MonumentStrip

namespace MonumentPred

/-!
Embedding of the predecessor-linking phase of `Graph::from_layout`
(`src/graph/src/graph.rs`, the `for (id, _dist) in expanded_node_ranges` loop):
for every node and every one of its successor links whose target is in the node
map, the loop asserts `succ_link.rotation < num_parts` and pushes
`Link { id, source_idx, rotation: num_parts - succ_link.rotation }` onto the
target's predecessor list.  Note that the subtraction is **not** reduced modulo
`num_parts`: for `rotation = 0` the stored predecessor rotation is
`num_parts`.  `NodeId` is abstracted to a type `ι` with decidable equality;
the `HashMap` is an association list, mutated in place by `updateNode`.
-/

variable {ι : Type _} [DecidableEq ι]

/-- `struct Link` from `src/graph/src/graph.rs`: target id, index of the
source link in the `Layout`, and the rotation taken over the link. -/
structure LinkG (ι : Type _) where
  id : ι
  source_idx : Nat
  rotation : Nat
deriving DecidableEq, Repr

/-- The fields of `Node` read or written by the predecessor-linking phase. -/
structure NodeG (ι : Type _) where
  successors : List (LinkG ι)
  predecessors : List (LinkG ι)
deriving DecidableEq, Repr

/-- `HashMap::get` on the association-list model: first entry with key `k`. -/
def lookupNode : List (ι × NodeG ι) → ι → Option (NodeG ι)
  | [], _ => none
  | p :: rest, k => if p.1 == k then some p.2 else lookupNode rest k

/-- `HashMap::get_mut` followed by a mutation: rewrite the first entry with
key `k` through `f`. -/
def updateNode (m : List (ι × NodeG ι)) (k : ι) (f : NodeG ι → NodeG ι) :
    List (ι × NodeG ι) :=
  match m with
  | [] => []
  | p :: rest =>
    if p.1 == k then (p.1, f p.2) :: rest else p :: updateNode rest k f

/-- One iteration of the inner loop of the predecessor phase: if the link's
target is in the map, assert `rotation < num_parts` (`none` models the failed
`assert!`) and push `(a, source_idx, num_parts - rotation)` onto the target's
predecessor list. -/
def addPredLink (np : Nat) (a : ι) (sl : LinkG ι) (m : List (ι × NodeG ι)) :
    Option (List (ι × NodeG ι)) :=
  match lookupNode m sl.id with
  | none => some m
  | some _ =>
    if sl.rotation < np then
      some (updateNode m sl.id (fun n =>
        { n with predecessors := n.predecessors ++ [⟨a, sl.source_idx, np - sl.rotation⟩] }))
    else none

/-- Process all successor links of node `a` (a snapshot of
`nodes.get(&id).unwrap().successors.clone()`). -/
def addPredsFromNode (np : Nat) (a : ι) :
    List (LinkG ι) → List (ι × NodeG ι) → Option (List (ι × NodeG ι))
  | [], m => some m
  | sl :: rest, m =>
    match addPredLink np a sl m with
    | none => none
    | some m' => addPredsFromNode np a rest m'

/-- The outer loop over all expanded node ids.  The `none` on a missing id
models the `.unwrap()` on `nodes.get(&id)` (unreachable when the ids come from
the map's own keys). -/
def addPredsLoop (np : Nat) :
    List ι → List (ι × NodeG ι) → Option (List (ι × NodeG ι))
  | [], m => some m
  | a :: rest, m =>
    match lookupNode m a with
    | none => none
    | some n =>
      match addPredsFromNode np a n.successors m with
      | none => none
      | some m' => addPredsLoop np rest m'

/-- The whole predecessor-linking phase of `Graph::from_layout`: iterate over
the keys of the node map. -/
def addPredecessorLinks (np : Nat) (m : List (ι × NodeG ι)) :
    Option (List (ι × NodeG ι)) :=
  addPredsLoop np (m.map Prod.fst) m

lemma lookupNode_isSome_iff (m : List (ι × NodeG ι)) (k : ι) :
    (lookupNode m k).isSome ↔ k ∈ m.map Prod.fst := by
  induction m with
  | nil => simp [lookupNode]
  | cons p rest ih =>
    by_cases h : p.1 = k
    · simp [lookupNode, h]
    · simp only [lookupNode, beq_iff_eq, if_neg h, List.map_cons, List.mem_cons, ih]
      exact ⟨Or.inr, fun hc => hc.elim (fun he => absurd he.symm h) id⟩

lemma lookupNode_updateNode_self (m : List (ι × NodeG ι)) (k : ι) (f : NodeG ι → NodeG ι) :
    lookupNode (updateNode m k f) k = (lookupNode m k).map f := by
  induction m with
  | nil => rfl
  | cons p rest ih =>
    by_cases h : p.1 = k
    · simp [updateNode, lookupNode, h]
    · simp only [updateNode, beq_iff_eq, if_neg h, lookupNode, ih]

lemma lookupNode_updateNode_ne (m : List (ι × NodeG ι)) (k : ι) (f : NodeG ι → NodeG ι)
    (k' : ι) (hne : k' ≠ k) :
    lookupNode (updateNode m k f) k' = lookupNode m k' := by
  induction m with
  | nil => rfl
  | cons p rest ih =>
    by_cases h : p.1 = k
    · have hkk' : ¬ k = k' := fun hc => hne hc.symm
      have h' : ¬ p.1 = k' := fun hc => hne (hc.symm.trans h)
      simp [updateNode, lookupNode, h, h', hkk']
    · by_cases h2 : p.1 = k'
      · simp [updateNode, lookupNode, h, h2, hne]
      · simp [updateNode, lookupNode, h, h2, hne, ih]

lemma addPredLink_succ {np : Nat} {a : ι} {sl : LinkG ι} {m m' : List (ι × NodeG ι)}
    (h : addPredLink np a sl m = some m') (k : ι) :
    (lookupNode m' k).map NodeG.successors = (lookupNode m k).map NodeG.successors := by
  unfold addPredLink at h
  cases hl : lookupNode m sl.id with
  | none => rw [hl] at h; cases h; rfl
  | some n =>
    rw [hl] at h
    by_cases hr : sl.rotation < np
    · rw [if_pos hr] at h
      cases h
      by_cases hk : k = sl.id
      · subst hk; rw [lookupNode_updateNode_self, hl]; rfl
      · rw [lookupNode_updateNode_ne _ _ _ _ hk]
    · rw [if_neg hr] at h; cases h

lemma addPredLink_isSome {np : Nat} {a : ι} {sl : LinkG ι} {m m' : List (ι × NodeG ι)}
    (h : addPredLink np a sl m = some m') (k : ι) :
    (lookupNode m' k).isSome = (lookupNode m k).isSome := by
  have hs := addPredLink_succ h k
  have : ((lookupNode m' k).map NodeG.successors).isSome =
      ((lookupNode m k).map NodeG.successors).isSome := by rw [hs]
  simpa using this

lemma addPredLink_pred_mono {np : Nat} {a : ι} {sl : LinkG ι} {m m' : List (ι × NodeG ι)}
    (h : addPredLink np a sl m = some m') {k : ι} {n : NodeG ι} {l : LinkG ι}
    (hk : lookupNode m k = some n) (hl : l ∈ n.predecessors) :
    ∃ n', lookupNode m' k = some n' ∧ l ∈ n'.predecessors := by
  unfold addPredLink at h
  cases hlk : lookupNode m sl.id with
  | none => rw [hlk] at h; cases h; exact ⟨n, hk, hl⟩
  | some n0 =>
    rw [hlk] at h
    by_cases hr : sl.rotation < np
    · rw [if_pos hr] at h
      cases h
      by_cases hke : k = sl.id
      · subst hke
        refine ⟨_, by rw [lookupNode_updateNode_self, hk]; rfl, ?_⟩
        exact List.mem_append_left _ hl
      · exact ⟨n, by rw [lookupNode_updateNode_ne _ _ _ _ hke]; exact hk, hl⟩
    · rw [if_neg hr] at h; cases h

lemma addPredsFromNode_succ {np : Nat} {a : ι} {sls : List (LinkG ι)}
    {m m' : List (ι × NodeG ι)} (h : addPredsFromNode np a sls m = some m') (k : ι) :
    (lookupNode m' k).map NodeG.successors = (lookupNode m k).map NodeG.successors := by
  induction sls generalizing m with
  | nil => cases h; rfl
  | cons sl rest ih =>
    unfold addPredsFromNode at h
    cases h1 : addPredLink np a sl m with
    | none => rw [h1] at h; cases h
    | some m1 =>
      rw [h1] at h
      rw [ih h, addPredLink_succ h1]

lemma addPredsFromNode_pred_mono {np : Nat} {a : ι} {sls : List (LinkG ι)}
    {m m' : List (ι × NodeG ι)} (h : addPredsFromNode np a sls m = some m')
    {k : ι} {n : NodeG ι} {l : LinkG ι} (hk : lookupNode m k = some n)
    (hl : l ∈ n.predecessors) :
    ∃ n', lookupNode m' k = some n' ∧ l ∈ n'.predecessors := by
  induction sls generalizing m n with
  | nil => cases h; exact ⟨n, hk, hl⟩
  | cons sl rest ih =>
    unfold addPredsFromNode at h
    cases h1 : addPredLink np a sl m with
    | none => rw [h1] at h; cases h
    | some m1 =>
      rw [h1] at h
      obtain ⟨n1, hn1, hl1⟩ := addPredLink_pred_mono h1 hk hl
      exact ih h hn1 hl1

lemma addPredsFromNode_adds {np : Nat} {a : ι} {sls : List (LinkG ι)}
    {m m' : List (ι × NodeG ι)} (h : addPredsFromNode np a sls m = some m') :
    ∀ sl ∈ sls, (lookupNode m sl.id).isSome →
      sl.rotation < np ∧
      ∃ nb, lookupNode m' sl.id = some nb ∧
        (⟨a, sl.source_idx, np - sl.rotation⟩ : LinkG ι) ∈ nb.predecessors := by
  induction sls generalizing m with
  | nil => intro sl hsl; cases hsl
  | cons sl0 rest ih =>
    unfold addPredsFromNode at h
    cases h1 : addPredLink np a sl0 m with
    | none => rw [h1] at h; cases h
    | some m1 =>
      rw [h1] at h
      intro sl hmem hsome
      rcases List.mem_cons.mp hmem with heq | hrest
      · subst heq
        obtain ⟨n, hn⟩ := Option.isSome_iff_exists.mp hsome
        unfold addPredLink at h1
        rw [hn] at h1
        by_cases hr : sl.rotation < np
        · rw [if_pos hr] at h1
          cases h1
          refine ⟨hr, ?_⟩
          have hm1 : lookupNode (updateNode m sl.id (fun nd =>
              { nd with predecessors :=
                  nd.predecessors ++ [⟨a, sl.source_idx, np - sl.rotation⟩] })) sl.id =
              some { n with predecessors :=
                  n.predecessors ++ [⟨a, sl.source_idx, np - sl.rotation⟩] } := by
            rw [lookupNode_updateNode_self, hn]; rfl
          exact addPredsFromNode_pred_mono h hm1 (List.mem_append_right _ (by simp))
        · rw [if_neg hr] at h1; cases h1
      · have hsome1 : (lookupNode m1 sl.id).isSome := by
          rw [addPredLink_isSome h1]; exact hsome
        exact ih h sl hrest hsome1

lemma addPredsLoop_pred_mono {np : Nat} {ids : List ι} {m m' : List (ι × NodeG ι)}
    (h : addPredsLoop np ids m = some m') {k : ι} {n : NodeG ι} {l : LinkG ι}
    (hk : lookupNode m k = some n) (hl : l ∈ n.predecessors) :
    ∃ n', lookupNode m' k = some n' ∧ l ∈ n'.predecessors := by
  induction ids generalizing m n with
  | nil => cases h; exact ⟨n, hk, hl⟩
  | cons a rest ih =>
    unfold addPredsLoop at h
    cases hA : lookupNode m a with
    | none => rw [hA] at h; cases h
    | some n0 =>
      rw [hA] at h
      replace h : (match addPredsFromNode np a n0.successors m with
          | none => none
          | some m1 => addPredsLoop np rest m1) = some m' := h
      cases hB : addPredsFromNode np a n0.successors m with
      | none => rw [hB] at h; cases h
      | some m1 =>
        rw [hB] at h
        obtain ⟨n1, hn1, hl1⟩ := addPredsFromNode_pred_mono hB hk hl
        exact ih h hn1 hl1

lemma addPredsLoop_adds {np : Nat} {ids : List ι} {m m' : List (ι × NodeG ι)}
    (h : addPredsLoop np ids m = some m') :
    ∀ a ∈ ids, ∀ sls, (lookupNode m a).map NodeG.successors = some sls →
      ∀ sl ∈ sls, (lookupNode m sl.id).isSome →
        sl.rotation < np ∧
        ∃ nb, lookupNode m' sl.id = some nb ∧
          (⟨a, sl.source_idx, np - sl.rotation⟩ : LinkG ι) ∈ nb.predecessors := by
  induction ids generalizing m with
  | nil => intro a ha; cases ha
  | cons a0 rest ih =>
    unfold addPredsLoop at h
    cases hA : lookupNode m a0 with
    | none => rw [hA] at h; cases h
    | some n0 =>
      rw [hA] at h
      replace h : (match addPredsFromNode np a0 n0.successors m with
          | none => none
          | some m1 => addPredsLoop np rest m1) = some m' := h
      cases hB : addPredsFromNode np a0 n0.successors m with
      | none => rw [hB] at h; cases h
      | some m1 =>
        rw [hB] at h
        intro a ha sls hsls sl hsl hsome
        rcases List.mem_cons.mp ha with heq | hrest
        · subst heq
          rw [hA] at hsls
          have hsls' : n0.successors = sls := by
            simpa using hsls
          subst hsls'
          obtain ⟨hrot, nb, hnb, hmem⟩ := addPredsFromNode_adds hB sl hsl hsome
          obtain ⟨nb', hnb', hmem'⟩ := addPredsLoop_pred_mono h hnb hmem
          exact ⟨hrot, nb', hnb', hmem'⟩
        · have hsls1 : (lookupNode m1 a).map NodeG.successors = some sls := by
            rw [addPredsFromNode_succ hB]; exact hsls
          have hsome1 : (lookupNode m1 sl.id).isSome := by
            have h2 : (lookupNode m1 sl.id).isSome = (lookupNode m sl.id).isSome := by
              have := congrArg Option.isSome (addPredsFromNode_succ hB sl.id)
              simpa using this
            rw [h2]; exact hsome
          exact ih h a hrest sls hsls1 sl hsl hsome1

/-- C1 (amended): in the graph returned by `Graph::from_layout`, for every
node `a` and every successor link `(b, link_idx, r)` of `a` whose target `b`
is in the node map, the asserted bound `r < num_parts` holds and the
predecessor list of `b` contains `(a, link_idx, num_parts − r)` — the
subtraction is **not** reduced modulo `num_parts`, so the stored predecessor
rotation lies in `(0, num_parts]` (it equals `(num_parts − r) mod num_parts`
only when `r ≠ 0`). -/
theorem from_layout_predecessor_links {np : Nat} {m m' : List (ι × NodeG ι)}
    (hrun : addPredecessorLinks np m = some m') {a : ι} {na : NodeG ι}
    (ha : lookupNode m a = some na) :
    ∀ sl ∈ na.successors, (lookupNode m sl.id).isSome →
      sl.rotation < np ∧ 0 < np - sl.rotation ∧ np - sl.rotation ≤ np ∧
      ∃ nb, lookupNode m' sl.id = some nb ∧
        (⟨a, sl.source_idx, np - sl.rotation⟩ : LinkG ι) ∈ nb.predecessors := by
  intro sl hsl hsome
  have hmem : a ∈ m.map Prod.fst :=
    (lookupNode_isSome_iff m a).mp (by rw [ha]; rfl)
  obtain ⟨hrot, nb, hnb, hmemnb⟩ :=
    addPredsLoop_adds hrun a hmem na.successors (by rw [ha]; rfl) sl hsl hsome
  exact ⟨hrot, Nat.sub_pos_of_lt hrot, Nat.sub_le np sl.rotation, nb, hnb, hmemnb⟩

/-- A node map reaching the predecessor phase of `Graph::from_layout`: a
two-part search where node `0` reaches node `1` over layout link `3` with
rotation `1`. -/
def exPredNodes2 : List (Nat × NodeG Nat) :=
  [(0, ⟨[⟨1, 3, 1⟩], []⟩), (1, ⟨[], []⟩)]

/-- The same node map after the predecessor phase has run. -/
def exPredNodes2' : List (Nat × NodeG Nat) :=
  [(0, ⟨[⟨1, 3, 1⟩], []⟩), (1, ⟨[], [⟨0, 3, 1⟩]⟩)]

/-- Witness for `from_layout_predecessor_links` on the concrete two-part node
map `exPredNodes2`. -/
theorem from_layout_predecessor_links_witness :
    1 < 2 ∧ 0 < 2 - 1 ∧ 2 - 1 ≤ 2 ∧
    ∃ nb, lookupNode exPredNodes2' 1 = some nb ∧
      (⟨0, 3, 2 - 1⟩ : LinkG Nat) ∈ nb.predecessors := by
  have hrun : addPredecessorLinks 2 exPredNodes2 = some exPredNodes2' := by decide
  have ha : lookupNode exPredNodes2 0 = some ⟨[⟨1, 3, 1⟩], []⟩ := by decide
  exact from_layout_predecessor_links hrun ha ⟨1, 3, 1⟩ (by decide) (by decide)

/-- Counterexample to C1 as stated: a single-part graph (`num_parts = 1`)
whose one node has itself as successor over link `0` with rotation `0`.  The
predecessor phase stores rotation `num_parts − 0 = 1`, not
`(num_parts − 0) mod num_parts = 0`, and `1` does not lie in
`[0, num_parts) = [0, 1)`. -/
theorem predecessor_rotation_counterexample :
    addPredecessorLinks 1 [((0 : Nat), (⟨[⟨0, 0, 0⟩], []⟩ : NodeG Nat))] =
      some [(0, ⟨[⟨0, 0, 0⟩], [⟨0, 0, 1⟩]⟩)] ∧
    (1 - 0) % 1 = 0 ∧
    ((⟨0, 0, (1 - 0) % 1⟩ : LinkG Nat) ∈ ([⟨0, 0, 1⟩] : List (LinkG Nat)) → False) ∧
    ((1 : Nat) < 1 → False) := by decide

end MonumentPred

namespace MonumentSeg

/-!
Embedding of `Layout::get_segment` (`src/graph/src/layout/mod.rs`).  The
bellframe `Row` and `Mask` types are external: `Row` is abstracted to a type
with decidable equality, the permutation product `course_head * transposition`
to a function `rowMul`, and a `Mask` to its `matches` function `Row → Bool`.
A `Block` is represented by its row count (`get_segment` only reads
`self.blocks[..].len()`); start/end labels are opaque and modelled as `Nat`.
Out-of-range block indices and `row` fields, which would panic in Rust, are
totalised with `List.getD`/truncating `Nat` subtraction and are outside the
scope of the claims below.
-/

variable {Row : Type _} [DecidableEq Row] [Inhabited Row]

/-- `RowIdx` from `src/graph/src/layout/mod.rs`: a `(block, row)` pair. -/
structure RowIdxL where
  block : Nat
  row : Nat
deriving DecidableEq, Repr

/-- `NodeId` from `src/graph/src/layout/mod.rs`. -/
structure NodeIdL (Row : Type _) where
  course_head : Row
  row_idx : RowIdxL
  is_start : Bool
deriving DecidableEq, Repr

/-- `Link` from `src/graph/src/layout/mod.rs`; the `debug_name`/`display_name`
fields are never read by `get_segment` and are omitted. -/
structure LinkL (Row : Type _) where
  from_idx : RowIdxL
  to_idx : RowIdxL
  course_head_mask : Row → Bool
  course_head_transposition : Row

instance : Inhabited (LinkL Row) :=
  ⟨⟨⟨0, 0⟩, ⟨0, 0⟩, fun _ => false, default⟩⟩

/-- `StartOrEnd` from `src/graph/src/layout/mod.rs`. -/
structure StartOrEndL (Row : Type _) where
  course_head : Row
  row_idx : RowIdxL
  label : Nat
deriving DecidableEq, Repr

/-- The fields of `Layout` read by `get_segment`. -/
structure LayoutL (Row : Type _) where
  blocks : List Nat
  links : List (LinkL Row)
  starts : List (StartOrEndL Row)
  ends : List (StartOrEndL Row)

/-- `Segment` from `src/graph/src/layout/mod.rs`. -/
structure SegmentL (Row : Type _) where
  node_id : NodeIdL Row
  length : Nat
  links : List (Nat × NodeIdL Row)
  start_label : Option Nat
  end_label : Option Nat
deriving DecidableEq, Repr

def NodeIdL.ch_and_row_idx (id : NodeIdL Row) : Row × RowIdxL :=
  (id.course_head, id.row_idx)

def StartOrEndL.ch_and_row_idx (e : StartOrEndL Row) : Row × RowIdxL :=
  (e.course_head, e.row_idx)

def blockLen (l : LayoutL Row) (b : Nat) : Nat := l.blocks.getD b 0

/-- The `length_between` closure of `get_segment`:
`(to + block_len - from) % block_len`. -/
def lengthBetween (block_len fromRow toRow : Nat) : Nat :=
  (toRow + block_len - fromRow) % block_len

/-- `Link::id_after`: the id reached after taking the link — course head
multiplied by the transposition, and never a start node. -/
def LinkL.idAfter (rowMul : Row → Row → Row) (link : LinkL Row) (course_head : Row) :
    NodeIdL Row :=
  ⟨rowMul course_head link.course_head_transposition, link.to_idx, false⟩

/-- `Link::eq_without_name_or_ch_mask`. -/
def eqWithoutNameOrChMask (a b : LinkL Row) : Bool :=
  a.from_idx == b.from_idx && a.to_idx == b.to_idx &&
    a.course_head_transposition == b.course_head_transposition

/-- The first loop of `get_segment`, over `self.links.iter_enumerated()`:
collect the outgoing links realising the shortest length.  State:
`(outgoing_links, shortest_length)`. -/
def linksLoop (rowMul : Row → Row → Row) (l : LayoutL Row) (id : NodeIdL Row) :
    List (Nat × NodeIdL Row) × Option Nat :=
  let block_len := blockLen l id.row_idx.block
  l.links.enum.foldl
    (fun st p =>
      let link_idx := p.1
      let link := p.2
      if link.from_idx.block ≠ id.row_idx.block then st
      else if ¬ link.course_head_mask id.course_head then st
      else
        let length := lengthBetween block_len id.row_idx.row link.from_idx.row + 1
        let cmp_to_shortest_len :=
          match st.2 with
          | some best_len => compare length best_len
          | none => Ordering.lt
        let st1 :=
          if cmp_to_shortest_len = Ordering.lt then ([], some length) else st
        if cmp_to_shortest_len ≠ Ordering.gt then
          (st1.1 ++ [(link_idx, link.idAfter rowMul id.course_head)], st1.2)
        else st1)
    ([], none)

/-- The mutable state of the second (ends) loop of `get_segment`. -/
structure EndState (Row : Type _) where
  end_label : Option Nat
  shortest_length : Option Nat
  outgoing_links : List (Nat × NodeIdL Row)
deriving DecidableEq, Repr

/-- The `is_improvement` computation in the ends loop of `get_segment`: an
end candidate must be *strictly* shorter than the current shortest length to
win (the code comment: links take precedence at equal length); any length
improves on no length. -/
def isImprovement (shortest_length : Option Nat) (len : Nat) : Bool :=
  match shortest_length with
  | some l0 => decide (len < l0)
  | none => true

/-- One iteration of the ends loop of `get_segment`: an end applies only when
its `(course head, row index)` pair equals the node's; zero-length candidates
at start nodes are skipped; a winning end records its label and length and
clears the outgoing links. -/
def endsStep (l : LayoutL Row) (id : NodeIdL Row) (st : EndState Row)
    (e : StartOrEndL Row) : EndState Row :=
  if e.ch_and_row_idx = id.ch_and_row_idx then
    let len := lengthBetween (blockLen l id.row_idx.block) id.row_idx.row e.row_idx.row
    if len == 0 && id.is_start then st
    else if isImprovement st.shortest_length len then ⟨some e.label, some len, []⟩
    else st
  else st

/-- The whole ends loop of `get_segment`. -/
def endsLoop (l : LayoutL Row) (id : NodeIdL Row) (init : EndState Row) :
    EndState Row :=
  l.ends.foldl (endsStep l id) init

/-- The start-label computation of `get_segment`: for a node marked
`is_start`, find the matching entry of `Layout::starts`; `none` models the
`panic!` when there is none. -/
def startLabelOf (l : LayoutL Row) (id : NodeIdL Row) : Option (Option Nat) :=
  if id.is_start then
    match l.starts.find? (fun s => s.ch_and_row_idx == id.ch_and_row_idx) with
    | some s => some (some s.label)
    | none => none
  else some none

def linkAt (l : LayoutL Row) (i : Nat) : LinkL Row := l.links.getD i default

/-- The link de-duplication pass at the end of `get_segment`: keep a link only
if no already-kept link is equal up to name and course-head mask. -/
def dedupLinks (l : LayoutL Row) (outgoing : List (Nat × NodeIdL Row)) :
    List (Nat × NodeIdL Row) :=
  outgoing.foldl
    (fun deduped p =>
      if deduped.all (fun q => ¬ eqWithoutNameOrChMask (linkAt l p.1) (linkAt l q.1)) then
        deduped ++ [p]
      else deduped)
    []

/-- `Layout::get_segment` (`src/graph/src/layout/mod.rs`).  The outer `none`
models the `panic!` for an `is_start` id with no matching start; `some none`
models Rust's `None` (a segment that never terminates); `some (some seg)`
models `Some(seg)`. -/
def getSegment (rowMul : Row → Row → Row) (l : LayoutL Row) (id : NodeIdL Row) :
    Option (Option (SegmentL Row)) :=
  let links_st := linksLoop rowMul l id
  let st := endsLoop l id ⟨none, links_st.2, links_st.1⟩
  match startLabelOf l id with
  | none => none
  | some start_label =>
    some (st.shortest_length.map (fun length =>
      ⟨id, length, dedupLinks l st.outgoing_links, start_label, st.end_label⟩))

lemma lengthBetween_self (block_len r : Nat) : lengthBetween block_len r r = 0 := by
  unfold lengthBetween
  rw [Nat.add_sub_cancel_left, Nat.mod_self]

/-- In `get_segment`, an end anchor applies to a node only when its
`(course head, row index)` pair equals the node's, so the candidate length
`length_between(id.row, end.row)` is always `0`. -/
lemma end_candidate_length_zero (l : LayoutL Row) (id : NodeIdL Row)
    (e : StartOrEndL Row) (h : e.ch_and_row_idx = id.ch_and_row_idx) :
    lengthBetween (blockLen l id.row_idx.block) id.row_idx.row e.row_idx.row = 0 := by
  have hr : e.row_idx = id.row_idx := congrArg Prod.snd h
  rw [hr]
  exact lengthBetween_self _ _

/-- Factored-out body of the links loop of `get_segment` (used for
induction). -/
def linksStep (rowMul : Row → Row → Row) (l : LayoutL Row) (id : NodeIdL Row)
    (st : List (Nat × NodeIdL Row) × Option Nat) (p : Nat × LinkL Row) :
    List (Nat × NodeIdL Row) × Option Nat :=
  if p.2.from_idx.block ≠ id.row_idx.block then st
  else if ¬ p.2.course_head_mask id.course_head then st
  else
    let length := lengthBetween (blockLen l id.row_idx.block) id.row_idx.row p.2.from_idx.row + 1
    let cmp_to_shortest_len :=
      match st.2 with
      | some best_len => compare length best_len
      | none => Ordering.lt
    let st1 :=
      if cmp_to_shortest_len = Ordering.lt then ([], some length) else st
    if cmp_to_shortest_len ≠ Ordering.gt then
      (st1.1 ++ [(p.1, p.2.idAfter rowMul id.course_head)], st1.2)
    else st1

lemma linksLoop_eq_foldl (rowMul : Row → Row → Row) (l : LayoutL Row) (id : NodeIdL Row) :
    linksLoop rowMul l id = l.links.enum.foldl (linksStep rowMul l id) ([], none) := rfl

lemma linksStep_pos (rowMul : Row → Row → Row) (l : LayoutL Row) (id : NodeIdL Row)
    (st : List (Nat × NodeIdL Row) × Option Nat) (p : Nat × LinkL Row)
    (hst : ∀ x, st.2 = some x → 0 < x) :
    ∀ x, (linksStep rowMul l id st p).2 = some x → 0 < x := by
  intro x hx
  dsimp only [linksStep] at hx
  split at hx
  · exact hst x hx
  · split at hx
    · exact hst x hx
    · split at hx
      · dsimp only at hx
        split at hx
        · cases hx
          exact Nat.succ_pos _
        · exact hst x hx
      · split at hx
        · cases hx
          exact Nat.succ_pos _
        · exact hst x hx

/-- In `get_segment`, every link realises a length of at least `1` (the `+ 1`
over the lead end), so the shortest link length is always positive. -/
lemma linksLoop_shortest_pos (rowMul : Row → Row → Row) (l : LayoutL Row)
    (id : NodeIdL Row) {L : Nat} (h : (linksLoop rowMul l id).2 = some L) : 0 < L := by
  rw [linksLoop_eq_foldl] at h
  revert h
  generalize hini : (([], none) : List (Nat × NodeIdL Row) × Option Nat) = ini
  have hbase : ∀ x, ini.2 = some x → 0 < x := by
    intro x hx; rw [← hini] at hx; cases hx
  clear hini
  induction l.links.enum generalizing ini with
  | nil => exact fun h => hbase L h
  | cons p rest ih =>
    intro h
    exact ih _ (linksStep_pos rowMul l id ini p hbase) h

/-- Each iteration of the ends loop either leaves the state unchanged or
replaces it by a winning end whose candidate length survived the
`len == 0 && id.is_start` skip. -/
lemma endsStep_cases (l : LayoutL Row) (id : NodeIdL Row) (st : EndState Row)
    (e : StartOrEndL Row) :
    endsStep l id st e = st ∨
    ∃ len, endsStep l id st e = ⟨some e.label, some len, []⟩ ∧
      ((len == 0) && id.is_start) = false := by
  unfold endsStep
  dsimp only
  split
  · split
    · exact Or.inl rfl
    · next hskip =>
      split
      · exact Or.inr ⟨_, rfl, eq_false_of_ne_true hskip⟩
      · exact Or.inl rfl
  · exact Or.inl rfl

lemma endsStep_invariant (l : LayoutL Row) (id : NodeIdL Row)
    (hstart : id.is_start = true) (st : EndState Row) (e : StartOrEndL Row)
    (h : st.end_label.isSome = true → ∃ n, st.shortest_length = some n ∧ 0 < n) :
    (endsStep l id st e).end_label.isSome = true →
      ∃ n, (endsStep l id st e).shortest_length = some n ∧ 0 < n := by
  rcases endsStep_cases l id st e with heq | ⟨len, heq, hlen⟩
  · rw [heq]; exact h
  · rw [heq]
    intro _
    refine ⟨len, rfl, ?_⟩
    rw [hstart, Bool.and_true] at hlen
    exact Nat.pos_of_ne_zero (by simpa using hlen)

lemma endsLoop_invariant (l : LayoutL Row) (id : NodeIdL Row)
    (hstart : id.is_start = true) :
    ∀ (ends : List (StartOrEndL Row)) (st : EndState Row),
      (st.end_label.isSome = true → ∃ n, st.shortest_length = some n ∧ 0 < n) →
      ((ends.foldl (endsStep l id) st).end_label.isSome = true →
        ∃ n, (ends.foldl (endsStep l id) st).shortest_length = some n ∧ 0 < n) := by
  intro ends
  induction ends with
  | nil => exact fun st h => h
  | cons e rest ih =>
    intro st h
    exact ih _ (endsStep_invariant l id hstart st e h)

/-- C3: `Layout::get_segment` never produces a zero-length end segment for a
node with `is_start = true` whose row coincides with an end anchor — the
zero-length end candidate is skipped by the explicit
`len == 0 && id.is_start` guard, so no length-0 composition can start there. -/
theorem get_segment_no_zero_length_end (rowMul : Row → Row → Row) (l : LayoutL Row)
    (id : NodeIdL Row) (hstart : id.is_start = true)
    (hend : ∃ e ∈ l.ends, e.ch_and_row_idx = id.ch_and_row_idx)
    (seg : SegmentL Row) (hseg : getSegment rowMul l id = some (some seg)) :
    ¬ (seg.end_label.isSome = true ∧ seg.length = 0) := by
  rintro ⟨hlab, hlen⟩
  unfold getSegment at hseg
  dsimp only at hseg
  set st := endsLoop l id ⟨none, (linksLoop rowMul l id).2, (linksLoop rowMul l id).1⟩
    with hstdef
  cases hsl : startLabelOf l id with
  | none => rw [hsl] at hseg; cases hseg
  | some lab =>
    rw [hsl] at hseg
    replace hseg : st.shortest_length.map (fun length =>
        (⟨id, length, dedupLinks l st.outgoing_links, lab, st.end_label⟩ :
          SegmentL Row)) = some seg := Option.some.inj hseg
    obtain ⟨n, hsh, hfn⟩ := Option.map_eq_some'.mp hseg
    subst hfn
    have hP := endsLoop_invariant l id hstart l.ends
      ⟨none, (linksLoop rowMul l id).2, (linksLoop rowMul l id).1⟩
      (by intro hc; simp at hc)
    obtain ⟨n', hn', hpos⟩ := hP hlab
    have hn'' : st.shortest_length = some n' := hn'
    rw [hsh] at hn''
    have hnn : n = n' := Option.some.inj hn''
    have hlen' : n = 0 := hlen
    omega

/-- A tiny concrete layout: one 4-row block, one link over the lead end at row
`1`, a start and an end both at row `0` of the plain course. -/
def exSegLayout : LayoutL Nat :=
  ⟨[4], [⟨⟨0, 1⟩, ⟨0, 0⟩, fun _ => true, 0⟩], [⟨0, ⟨0, 0⟩, 5⟩], [⟨0, ⟨0, 0⟩, 9⟩]⟩

/-- The start node of `exSegLayout`. -/
def exSegId : NodeIdL Nat := ⟨0, ⟨0, 0⟩, true⟩

/-- The segment `get_segment` produces for `exSegId`: full length 2, not an
end segment (the zero-length end candidate was skipped). -/
def exSeg : SegmentL Nat := ⟨exSegId, 2, [(0, ⟨0, ⟨0, 0⟩, false⟩)], some 5, none⟩

/-- Witness for `get_segment_no_zero_length_end` on the concrete layout
`exSegLayout`, whose start node's row carries an end anchor. -/
theorem get_segment_no_zero_length_end_witness :
    ¬ (exSeg.end_label.isSome = true ∧ exSeg.length = 0) :=
  get_segment_no_zero_length_end (fun a _ => a) exSegLayout exSegId rfl
    (by decide) exSeg (by decide)

end MonumentSeg

namespace MonumentBuild

/-!
Embedding of the Dijkstra loop of `build_graph` (`src/graph/src/graph.rs`).
`RangeFactory::gen_range` lives in the external `monument_layout` crate (not
under `src/`) and is taken as a function parameter `genRange`; the `expect`
on its `None` result (an infinite segment) is modelled as the loop returning
`none`.  `NodeId` is abstracted to `ι`.  The `BinaryHeap` frontier is
modelled as a list from which `popMinFrontier` removes a
minimum-distance element; the loop's fuel only caps the number of
iterations — the claims proved below hold for every fuel value.
-/

variable {ι : Type _} [DecidableEq ι]

/-- `node_range::RangeEnd`: a range either stops at an end anchor or at a set
of successor links `(link_idx, id after link, rotation)`.  The `End` payload
is opaque and modelled as `Nat`. -/
inductive RangeEndB (ι : Type _) where
  | endAnchor (e : Nat)
  | notEnd (links : List (Nat × ι × Nat))
deriving DecidableEq, Repr

/-- The fields of `node_range::NodeRange` that the `build_graph` loop
reads. -/
structure NodeRangeB (ι : Type _) where
  total_length : Nat
  range_end : RangeEndB ι
deriving DecidableEq, Repr

/-- The mutable state of the `build_graph` loop: the `expanded_nodes` map,
the collected `end_nodes`, and the frontier heap. -/
structure BuildState (ι : Type _) where
  expanded : List (ι × NodeRangeB ι × Nat)
  end_nodes : List (ι × Nat)
  frontier : List (ι × Nat)
deriving DecidableEq, Repr

/-- `expanded_nodes.get(&node_id)` on the association-list model. -/
def lookupExpanded : List (ι × NodeRangeB ι × Nat) → ι → Option (NodeRangeB ι × Nat)
  | [], _ => none
  | p :: rest, k => if p.1 == k then some p.2 else lookupExpanded rest k

/-- Modelled from the spec: `monument_utils::FrontierItem`'s ordering is not
under `src/`; per the spec the frontier is "a min-heap keyed on distance", so
popping removes a minimum-distance entry (the leftmost one here; the claims
below do not depend on the tie order). -/
def popMinFrontier : List (ι × Nat) → Option ((ι × Nat) × List (ι × Nat))
  | [] => none
  | x :: xs =>
    match popMinFrontier xs with
    | none => some (x, [])
    | some (m, rest) => if x.2 ≤ m.2 then some (x, xs) else some (m, x :: rest)

/-- The `while let Some(..) = frontier.pop()` loop of `build_graph`
(`src/graph/src/graph.rs`): skip already-expanded ids; generate the range
(`none` models the "Infinite segment found" panic); drop the id when
`distance + total_length > max_length`; otherwise record an end or push all
successor ids at distance `distance + total_length`, and mark the id
expanded. -/
def buildGraphLoop (genRange : ι → Option (NodeRangeB ι)) (maxLength : Nat) :
    Nat → BuildState ι → Option (BuildState ι)
  | 0, st => some st
  | Nat.succ fuel, st =>
    match popMinFrontier st.frontier with
    | none => some st
    | some ((node_id, distance), rest) =>
      if (lookupExpanded st.expanded node_id).isSome then
        buildGraphLoop genRange maxLength fuel { st with frontier := rest }
      else
        match genRange node_id with
        | none => none
        | some node_range =>
          let new_dist := distance + node_range.total_length
          if maxLength < new_dist then
            buildGraphLoop genRange maxLength fuel { st with frontier := rest }
          else
            match node_range.range_end with
            | RangeEndB.endAnchor e =>
              buildGraphLoop genRange maxLength fuel
                { expanded := st.expanded ++ [(node_id, (node_range, distance))],
                  end_nodes := st.end_nodes ++ [(node_id, e)],
                  frontier := rest }
            | RangeEndB.notEnd succ_links =>
              buildGraphLoop genRange maxLength fuel
                { expanded := st.expanded ++ [(node_id, (node_range, distance))],
                  end_nodes := st.end_nodes,
                  frontier := rest ++ succ_links.map (fun l => (l.2.1, new_dist)) }

/-- `build_graph`: seed the frontier with every start id at distance `0`. -/
def buildGraphB (genRange : ι → Option (NodeRangeB ι)) (maxLength : Nat)
    (startIds : List ι) (fuel : Nat) : Option (BuildState ι) :=
  buildGraphLoop genRange maxLength fuel ⟨[], [], startIds.map (fun id => (id, 0))⟩

/-- The fields of the `Node` built by `build_node` in `Graph::from_layout`
that the distance claim concerns: `build_node` copies the range's
`total_length` and sets `lb_distance_from_rounds` to the Dijkstra
distance. -/
structure NodeB where
  total_length : Nat
  lb_distance_from_rounds : Nat
deriving DecidableEq, Repr

/-- `build_node` on one expanded entry (the modelled fields only). -/
def buildNodeB (p : ι × NodeRangeB ι × Nat) : NodeB := ⟨p.2.1.total_length, p.2.2⟩

/-- The node set of `Graph::from_layout` (modelled fields only): one node per
expanded range. -/
def fromLayoutNodesB (genRange : ι → Option (NodeRangeB ι)) (maxLength : Nat)
    (startIds : List ι) (fuel : Nat) : Option (List NodeB) :=
  (buildGraphB genRange maxLength startIds fuel).map
    (fun st => st.expanded.map buildNodeB)

lemma buildGraphLoop_expanded_bound (genRange : ι → Option (NodeRangeB ι))
    (maxLength : Nat) :
    ∀ (fuel : Nat) (st st' : BuildState ι),
      (∀ p ∈ st.expanded, p.2.2 + p.2.1.total_length ≤ maxLength) →
      buildGraphLoop genRange maxLength fuel st = some st' →
      ∀ p ∈ st'.expanded, p.2.2 + p.2.1.total_length ≤ maxLength := by
  intro fuel
  induction fuel with
  | zero => intro st st' hinv h; cases h; exact hinv
  | succ fuel ih =>
    intro st st' hinv h
    rw [buildGraphLoop] at h
    split at h
    · cases h; exact hinv
    · split at h
      · refine ih _ _ ?_ h
        exact hinv
      · split at h
        · cases h
        · next node_range _ =>
          dsimp only at h
          split at h
          · refine ih _ _ ?_ h
            exact hinv
          · next hle =>
            split at h
            all_goals {
              refine ih _ _ ?_ h
              intro p hp
              rcases List.mem_append.mp hp with hp | hp
              · exact hinv p hp
              · have hpe := List.mem_singleton.mp hp
                subst hpe
                exact Nat.le_of_not_lt hle
            }

/-- C7: in `build_graph`, a popped id whose shortest through-length exceeds
`max_length` is discarded without being expanded or recorded; every entry of
the final `expanded_nodes` map satisfies
`distance + total_length ≤ max_length`, so every node of the graph returned by
`Graph::from_layout` satisfies
`lb_distance_from_rounds + total_length ≤ max_length`; and a retained non-end
range pushes all its successor ids at distance
`distance + total_length`. -/
theorem build_graph_length_pruning (genRange : ι → Option (NodeRangeB ι))
    (maxLength : Nat) :
    (∀ (fuel : Nat) (st : BuildState ι) (node_id : ι) (distance : Nat)
        (rest : List (ι × Nat)) (node_range : NodeRangeB ι),
      popMinFrontier st.frontier = some ((node_id, distance), rest) →
      lookupExpanded st.expanded node_id = none →
      genRange node_id = some node_range →
      maxLength < distance + node_range.total_length →
      buildGraphLoop genRange maxLength (fuel + 1) st =
        buildGraphLoop genRange maxLength fuel { st with frontier := rest }) ∧
    (∀ (fuel : Nat) (st : BuildState ι) (node_id : ι) (distance : Nat)
        (rest : List (ι × Nat)) (node_range : NodeRangeB ι)
        (succ_links : List (Nat × ι × Nat)),
      popMinFrontier st.frontier = some ((node_id, distance), rest) →
      lookupExpanded st.expanded node_id = none →
      genRange node_id = some node_range →
      node_range.range_end = RangeEndB.notEnd succ_links →
      distance + node_range.total_length ≤ maxLength →
      buildGraphLoop genRange maxLength (fuel + 1) st =
        buildGraphLoop genRange maxLength fuel
          { expanded := st.expanded ++ [(node_id, (node_range, distance))],
            end_nodes := st.end_nodes,
            frontier := rest ++ succ_links.map
              (fun l => (l.2.1, distance + node_range.total_length)) }) ∧
    (∀ (startIds : List ι) (fuel : Nat) (st' : BuildState ι),
      buildGraphB genRange maxLength startIds fuel = some st' →
      ∀ p ∈ st'.expanded, p.2.2 + p.2.1.total_length ≤ maxLength) ∧
    (∀ (startIds : List ι) (fuel : Nat) (ns : List NodeB),
      fromLayoutNodesB genRange maxLength startIds fuel = some ns →
      ∀ n ∈ ns, n.lb_distance_from_rounds + n.total_length ≤ maxLength) := by
  refine ⟨?_, ?_, ?_, ?_⟩
  · intro fuel st node_id distance rest node_range hpop hlook hgen hgt
    rw [buildGraphLoop, hpop]
    simp [hlook, hgen, hgt]
  · intro fuel st node_id distance rest node_range succ_links hpop hlook hgen hre hle
    rw [buildGraphLoop, hpop]
    simp [hlook, hgen, hre, Nat.not_lt.mpr hle]
  · intro startIds fuel st' h
    exact buildGraphLoop_expanded_bound genRange maxLength fuel _ st' (by simp) h
  · intro startIds fuel ns h
    cases hb : buildGraphB genRange maxLength startIds fuel with
    | none => rw [fromLayoutNodesB, hb] at h; cases h
    | some st' =>
      rw [fromLayoutNodesB, hb] at h
      replace h : st'.expanded.map buildNodeB = ns := Option.some.inj h
      subst h
      intro n hn
      obtain ⟨p, hp, hpe⟩ := List.mem_map.mp hn
      subst hpe
      exact buildGraphLoop_expanded_bound genRange maxLength fuel _ st' (by simp) hb p hp

/-- A two-node range factory: node `0` is a 2-row range linking to node `1`,
and node `1` is a 1-row end range. -/
def exGenRange : Nat → Option (NodeRangeB Nat) := fun id =>
  if id = 0 then some ⟨2, RangeEndB.notEnd [(0, 1, 0)]⟩
  else some ⟨1, RangeEndB.endAnchor 0⟩

/-- Witness for `build_graph_length_pruning`: on `exGenRange` with
`max_length = 3`, the expanded entry `(0, range, 0)` of the completed run
satisfies the distance bound. -/
theorem build_graph_length_pruning_witness :
    (((0 : Nat), ((⟨2, RangeEndB.notEnd [(0, 1, 0)]⟩ : NodeRangeB Nat), 0)) :
        Nat × NodeRangeB Nat × Nat).2.2 +
      (((0 : Nat), ((⟨2, RangeEndB.notEnd [(0, 1, 0)]⟩ : NodeRangeB Nat), 0)) :
        Nat × NodeRangeB Nat × Nat).2.1.total_length ≤ 3 := by
  have h := (build_graph_length_pruning exGenRange 3).2.2.1 [0] 5
    ⟨[(0, (⟨2, RangeEndB.notEnd [(0, 1, 0)]⟩, 0)), (1, (⟨1, RangeEndB.endAnchor 0⟩, 2))],
      [(1, 0)], []⟩ (by decide)
  exact h _ (by decide)

end MonumentBuild

namespace MonumentOld

/-!
Embedding of the older prototype graph (`src/.old/monument/src/graph/mod.rs`)
and its compaction (`src/.old/monument/src/compose/graph.rs`).  `NodeId` is
abstracted to `ι`; the `Score` type (a scalar music total) is modelled as
`ℤ`; the `HashMap` of nodes is an association list.
-/

variable {ι : Type _} [DecidableEq ι]

/-- `Node` from `src/.old/monument/src/graph/mod.rs`. -/
structure NodeO (ι : Type _) where
  start_idx : Option Nat
  end_idx : Option Nat
  length : Nat
  /-- `score.total` — the only part of the `Breakdown` read by the passes
  modelled here.  `Score` is a scalar music total in the source; it is
  modelled as `ℤ` (a linearly ordered ring with division) because the claims
  below concern which key the DP iterates and sorts by, not rounding. -/
  score_total : Int
  false_nodes : List ι
  min_distance_from_rounds : Nat
  min_distance_to_rounds : Option Nat
  successors : List (Nat × ι)
  predecessors : List ι
deriving DecidableEq, Repr

/-- `Graph` from `src/.old/monument/src/graph/mod.rs`. -/
structure GraphO (ι : Type _) where
  nodes : List (ι × NodeO ι)
  start_nodes : List ι
deriving DecidableEq, Repr

def lookupO : List (ι × NodeO ι) → ι → Option (NodeO ι)
  | [], _ => none
  | p :: rest, k => if p.1 == k then some p.2 else lookupO rest k

/-- `self.nodes.get(id)`. -/
def GraphO.find (g : GraphO ι) (id : ι) : Option (NodeO ι) := lookupO g.nodes id

/-- `ProtoNode::is_end`. -/
def NodeO.is_end (n : NodeO ι) : Bool := n.end_idx.isSome

lemma lookupO_mem {m : List (ι × NodeO ι)} {k : ι} {n : NodeO ι}
    (h : lookupO m k = some n) : k ∈ m.map Prod.fst := by
  induction m with
  | nil => cases h
  | cons p rest ih =>
    by_cases he : p.1 = k
    · exact List.mem_cons.mpr (Or.inl he.symm)
    · rw [lookupO, if_neg (by simpa using he)] at h
      exact List.mem_cons.mpr (Or.inr (ih h))

lemma filter_length_mono {α : Type _} (l : List α) (p q : α → Bool)
    (himp : ∀ a, q a = true → p a = true) :
    (l.filter q).length ≤ (l.filter p).length := by
  induction l with
  | nil => exact Nat.le_refl _
  | cons a rest ih =>
    cases hqa : q a with
    | true =>
      rw [List.filter_cons, List.filter_cons, hqa, himp a hqa]
      exact Nat.succ_le_succ ih
    | false =>
      rw [List.filter_cons, hqa]
      cases hpa : p a with
      | true =>
        rw [List.filter_cons, hpa]
        exact Nat.le_succ_of_le ih
      | false =>
        rw [List.filter_cons, hpa]
        exact ih

lemma filter_length_lt {α : Type _} (l : List α) (p q : α → Bool)
    (himp : ∀ a, q a = true → p a = true)
    (x : α) (hx : x ∈ l) (hpx : p x = true) (hqx : q x = false) :
    (l.filter q).length < (l.filter p).length := by
  induction l with
  | nil => cases hx
  | cons a rest ih =>
    rcases List.mem_cons.mp hx with he | hx'
    · subst he
      rw [List.filter_cons, List.filter_cons, hpx, hqx]
      exact Nat.lt_succ_of_le (filter_length_mono rest p q himp)
    · cases hqa : q a with
      | true =>
        rw [List.filter_cons, List.filter_cons, hqa, himp a hqa]
        exact Nat.succ_lt_succ (ih hx')
      | false =>
        rw [List.filter_cons, hqa]
        cases hpa : p a with
        | true =>
          rw [List.filter_cons, hpa]
          exact Nat.lt_succ_of_lt (ih hx')
        | false =>
          rw [List.filter_cons, hpa]
          exact ih hx'

/-- The number of graph keys not yet visited — the termination measure of the
depth-first `explore`. -/
def unvisitedCount (g : GraphO ι) (visited : List ι) : Nat :=
  ((g.nodes.map Prod.fst).filter (fun k => decide (k ∉ visited))).length

/-- `Graph::explore` (`src/.old/monument/src/graph/mod.rs`), the recursive
DFS used by `remove_nodes_by_distance` to collect the nodes reachable from
the start nodes, written with an explicit work stack (the recursive source
explores the same visited set): pop an id; skip it if it has no node or was
already visited, otherwise mark it visited and push its successors. -/
def exploreStack (g : GraphO ι) : List ι → List ι → List ι
  | [], visited => visited
  | id :: stack, visited =>
    match hfind : g.find id with
    | none => exploreStack g stack visited
    | some n =>
      if hv : id ∈ visited then exploreStack g stack visited
      else exploreStack g (n.successors.map Prod.snd ++ stack) (id :: visited)
termination_by stack visited => (unvisitedCount g visited, stack.length)
decreasing_by
  · exact Prod.Lex.right _ (by simp [List.length_cons, Nat.lt_succ_self])
  · exact Prod.Lex.right _ (by simp [List.length_cons, Nat.lt_succ_self])
  · refine Prod.Lex.left _ _ ?_
    unfold unvisitedCount
    refine filter_length_lt _ _ _ ?_ id (lookupO_mem hfind) ?_ ?_
    · intro a ha
      have ha' : a ∉ id :: visited := of_decide_eq_true ha
      exact decide_eq_true (fun hc => ha' (List.mem_cons.mpr (Or.inr hc)))
    · exact decide_eq_true hv
    · exact decide_eq_false (fun hc => hc (List.mem_cons.mpr (Or.inl rfl)))

/-- Reachability from the start nodes along successor edges between existing
nodes — the semantic counterpart of `Graph::explore`. -/
inductive ReachableO (g : GraphO ι) : ι → Prop where
  | start {id : ι} (hs : id ∈ g.start_nodes) (hn : (g.find id).isSome = true) :
      ReachableO g id
  | step {a b : ι} {n : NodeO ι} (ha : ReachableO g a) (hn : g.find a = some n)
      (hb : b ∈ n.successors.map Prod.snd) (hbn : (g.find b).isSome = true) :
      ReachableO g b

lemma exploreStack_nil (g : GraphO ι) (visited : List ι) :
    exploreStack g [] visited = visited := by
  simp [exploreStack]

lemma exploreStack_cons_none (g : GraphO ι) (id : ι) (stack visited : List ι)
    (h : g.find id = none) :
    exploreStack g (id :: stack) visited = exploreStack g stack visited := by
  rw [exploreStack, h]

lemma exploreStack_cons_mem (g : GraphO ι) (id : ι) (stack visited : List ι)
    (n : NodeO ι) (h : g.find id = some n) (hv : id ∈ visited) :
    exploreStack g (id :: stack) visited = exploreStack g stack visited := by
  rw [exploreStack, h]
  exact dif_pos hv

lemma exploreStack_cons_new (g : GraphO ι) (id : ι) (stack visited : List ι)
    (n : NodeO ι) (h : g.find id = some n) (hv : id ∉ visited) :
    exploreStack g (id :: stack) visited =
      exploreStack g (n.successors.map Prod.snd ++ stack) (id :: visited) := by
  rw [exploreStack, h]
  exact dif_neg hv

lemma exploreStack_visited_sub (g : GraphO ι) :
    ∀ (stack visited : List ι), visited ⊆ exploreStack g stack visited := by
  intro stack visited
  induction stack, visited using exploreStack.induct g with
  | case1 visited =>
    rw [exploreStack_nil]
    exact List.Subset.refl _
  | case2 id stack visited hfind ih =>
    rw [exploreStack_cons_none g id stack visited hfind]
    exact ih
  | case3 id stack visited n hfind hv ih =>
    rw [exploreStack_cons_mem g id stack visited n hfind hv]
    exact ih
  | case4 id stack visited n hfind hv ih =>
    rw [exploreStack_cons_new g id stack visited n hfind hv]
    exact fun x hx => ih (List.mem_cons.mpr (Or.inr hx))

lemma exploreStack_stack_mem (g : GraphO ι) :
    ∀ (stack visited : List ι), ∀ s ∈ stack, (g.find s).isSome = true →
      s ∈ exploreStack g stack visited := by
  intro stack visited
  induction stack, visited using exploreStack.induct g with
  | case1 visited => intro s hs; cases hs
  | case2 id stack visited hfind ih =>
    intro s hs hsome
    rw [exploreStack_cons_none g id stack visited hfind]
    rcases List.mem_cons.mp hs with he | hs'
    · subst he; rw [hfind] at hsome; cases hsome
    · exact ih s hs' hsome
  | case3 id stack visited n hfind hv ih =>
    intro s hs hsome
    rw [exploreStack_cons_mem g id stack visited n hfind hv]
    rcases List.mem_cons.mp hs with he | hs'
    · subst he; exact exploreStack_visited_sub g stack visited hv
    · exact ih s hs' hsome
  | case4 id stack visited n hfind hv ih =>
    intro s hs hsome
    rw [exploreStack_cons_new g id stack visited n hfind hv]
    rcases List.mem_cons.mp hs with he | hs'
    · subst he
      exact exploreStack_visited_sub g _ _ (List.mem_cons.mpr (Or.inl rfl))
    · exact ih s (List.mem_append_right _ hs') hsome

/-- Invariant of the DFS: every existing successor of a visited node is
either already visited or still on the work stack. -/
def InvO (g : GraphO ι) (stack visited : List ι) : Prop :=
  ∀ v ∈ visited, ∀ n, g.find v = some n → ∀ b ∈ n.successors.map Prod.snd,
    (g.find b).isSome = true → (b ∈ visited ∨ b ∈ stack)

lemma exploreStack_closed (g : GraphO ι) :
    ∀ (stack visited : List ι), InvO g stack visited →
      ∀ v ∈ exploreStack g stack visited, ∀ n, g.find v = some n →
        ∀ b ∈ n.successors.map Prod.snd, (g.find b).isSome = true →
          b ∈ exploreStack g stack visited := by
  intro stack visited
  induction stack, visited using exploreStack.induct g with
  | case1 visited =>
    intro hinv v hv nn hn b hb hbn
    rw [exploreStack_nil] at hv ⊢
    rcases hinv v hv nn hn b hb hbn with h | h
    · exact h
    · cases h
  | case2 id stack visited hfind ih =>
    intro hinv
    rw [exploreStack_cons_none g id stack visited hfind]
    refine ih ?_
    intro v hv nn hn b hb hbn
    rcases hinv v hv nn hn b hb hbn with h | h
    · exact Or.inl h
    · rcases List.mem_cons.mp h with he | h2
      · subst he; rw [hfind] at hbn; cases hbn
      · exact Or.inr h2
  | case3 id stack visited n hfind hv ih =>
    intro hinv
    rw [exploreStack_cons_mem g id stack visited n hfind hv]
    refine ih ?_
    intro v hvv nn hn b hb hbn
    rcases hinv v hvv nn hn b hb hbn with h | h
    · exact Or.inl h
    · rcases List.mem_cons.mp h with he | h2
      · subst he; exact Or.inl hv
      · exact Or.inr h2
  | case4 id stack visited n hfind hv ih =>
    intro hinv
    rw [exploreStack_cons_new g id stack visited n hfind hv]
    refine ih ?_
    intro v hvv nn hn b hb hbn
    rcases List.mem_cons.mp hvv with he | hv'
    · subst he
      have hnn : nn = n := by
        rw [hfind] at hn
        exact (Option.some.inj hn).symm
      subst hnn
      exact Or.inr (List.mem_append_left _ hb)
    · rcases hinv v hv' nn hn b hb hbn with h | h
      · exact Or.inl (List.mem_cons.mpr (Or.inr h))
      · rcases List.mem_cons.mp h with he | h2
        · subst he; exact Or.inl (List.mem_cons.mpr (Or.inl rfl))
        · exact Or.inr (List.mem_append_right _ h2)

lemma exploreStack_sound (g : GraphO ι) :
    ∀ (stack visited : List ι),
      (∀ v ∈ visited, ReachableO g v) →
      (∀ s ∈ stack, (g.find s).isSome = true → ReachableO g s) →
      ∀ x ∈ exploreStack g stack visited, ReachableO g x := by
  intro stack visited
  induction stack, visited using exploreStack.induct g with
  | case1 visited =>
    intro hv _ x hx
    rw [exploreStack_nil] at hx
    exact hv x hx
  | case2 id stack visited hfind ih =>
    intro hv hstack
    rw [exploreStack_cons_none g id stack visited hfind]
    exact ih hv (fun s hs => hstack s (List.mem_cons.mpr (Or.inr hs)))
  | case3 id stack visited n hfind hv ih =>
    intro hvis hstack
    rw [exploreStack_cons_mem g id stack visited n hfind hv]
    exact ih hvis (fun s hs => hstack s (List.mem_cons.mpr (Or.inr hs)))
  | case4 id stack visited n hfind hv ih =>
    intro hvis hstack
    rw [exploreStack_cons_new g id stack visited n hfind hv]
    have hid : ReachableO g id :=
      hstack id (List.mem_cons.mpr (Or.inl rfl)) (by rw [hfind]; rfl)
    refine ih ?_ ?_
    · intro v hvv
      rcases List.mem_cons.mp hvv with he | hv'
      · subst he; exact hid
      · exact hvis v hv'
    · intro s hs hsome
      rcases List.mem_append.mp hs with hs' | hs'
      · exact ReachableO.step hid hfind hs' hsome
      · exact hstack s (List.mem_cons.mpr (Or.inr hs')) hsome

/-- The DFS `explore` computes exactly the ids reachable from the start
nodes. -/
lemma exploreStack_spec (g : GraphO ι) (x : ι) :
    x ∈ exploreStack g g.start_nodes [] ↔ ReachableO g x := by
  constructor
  · intro h
    exact exploreStack_sound g g.start_nodes [] (fun v hv => absurd hv (List.not_mem_nil v))
      (fun s hs hn => ReachableO.start hs hn) x h
  · intro h
    induction h with
    | start hs hn => exact exploreStack_stack_mem g g.start_nodes [] _ hs hn
    | step ha hn hb hbn ih =>
      exact exploreStack_closed g g.start_nodes []
        (fun v hv => absurd hv (List.not_mem_nil v)) _ ih _ hn _ hb hbn

/-- The distance-based part of `remove_nodes_by_distance`
(`src/.old/monument/src/graph/mod.rs`): walk the node map collecting ids to
remove; a node with a finite `min_distance_to_rounds` is removed when
`min_distance_from_rounds + min_distance_to_rounds > max_length`; a node with
no distance to rounds is removed — unless it is an end node, in which case the
pass panics (`none`). -/
def distanceRemovals (maxLength : Nat) : List (ι × NodeO ι) → Option (List ι)
  | [] => some []
  | p :: rest =>
    match p.2.min_distance_to_rounds with
    | some dist_to_rounds =>
      if maxLength < p.2.min_distance_from_rounds + dist_to_rounds then
        (distanceRemovals maxLength rest).map (fun removals => p.1 :: removals)
      else distanceRemovals maxLength rest
    | none =>
      if p.2.is_end then none
      else (distanceRemovals maxLength rest).map (fun removals => p.1 :: removals)

/-- `Graph::remove_nodes_by_distance` (`src/.old/monument/src/graph/mod.rs`):
DFS-explore from the start nodes, then remove every node that is unreachable
or flagged by `distanceRemovals`; `none` models the
"End node marked as being unable to reach rounds!" panic. -/
def removeNodesByDistance (g : GraphO ι) (maxLength : Nat) : Option (GraphO ι) :=
  let reachable_nodes := exploreStack g g.start_nodes []
  (distanceRemovals maxLength g.nodes).map (fun nodes_to_remove =>
    { g with nodes := g.nodes.filter (fun p =>
        decide (p.1 ∈ reachable_nodes) && ! decide (p.1 ∈ nodes_to_remove)) })

lemma distanceRemovals_none_iff (maxLength : Nat) (ns : List (ι × NodeO ι)) :
    distanceRemovals maxLength ns = none ↔
      ∃ p ∈ ns, p.2.is_end = true ∧ p.2.min_distance_to_rounds = none := by
  induction ns with
  | nil => simp [distanceRemovals]
  | cons p rest ih =>
    cases hd : p.2.min_distance_to_rounds with
    | some d =>
      by_cases hgt : maxLength < p.2.min_distance_from_rounds + d
      · simp [distanceRemovals, hd, hgt, ih, Option.map_eq_none']
      · simp [distanceRemovals, hd, hgt, ih]
    | none =>
      by_cases he : p.2.is_end = true
      · simp [distanceRemovals, hd, he]
      · simp [distanceRemovals, hd, he, ih, Option.map_eq_none']

lemma distanceRemovals_mem (maxLength : Nat) :
    ∀ (ns : List (ι × NodeO ι)) (rs : List ι),
      distanceRemovals maxLength ns = some rs → ∀ k : ι,
        (k ∈ rs ↔ ∃ n : NodeO ι, (k, n) ∈ ns ∧
          (n.min_distance_to_rounds = none ∨
            ∃ d, n.min_distance_to_rounds = some d ∧
              maxLength < n.min_distance_from_rounds + d)) := by
  intro ns
  induction ns with
  | nil =>
    intro rs h k
    cases h
    simp
  | cons p rest ih =>
    obtain ⟨pk, pn⟩ := p
    intro rs h k
    rw [distanceRemovals] at h
    cases hd : pn.min_distance_to_rounds with
    | some d =>
      rw [hd] at h
      dsimp only at h
      by_cases hgt : maxLength < pn.min_distance_from_rounds + d
      · rw [if_pos hgt] at h
        cases hr : distanceRemovals maxLength rest with
        | none => rw [hr] at h; cases h
        | some rs' =>
          rw [hr, Option.map_some'] at h
          cases h
          constructor
          · intro hk
            rcases List.mem_cons.mp hk with he | hk'
            · subst he
              exact ⟨pn, List.mem_cons.mpr (Or.inl rfl), Or.inr ⟨d, hd, hgt⟩⟩
            · obtain ⟨n, hmem, hbad⟩ := ((ih rs' hr k).mp hk')
              exact ⟨n, List.mem_cons.mpr (Or.inr hmem), hbad⟩
          · rintro ⟨n, hmem, hbad⟩
            rcases List.mem_cons.mp hmem with he | hmem'
            · exact List.mem_cons.mpr (Or.inl (congrArg Prod.fst he))
            · exact List.mem_cons.mpr (Or.inr ((ih rs' hr k).mpr ⟨n, hmem', hbad⟩))
      · rw [if_neg hgt] at h
        rw [ih rs h k]
        constructor
        · rintro ⟨n, hmem, hbad⟩
          exact ⟨n, List.mem_cons.mpr (Or.inr hmem), hbad⟩
        · rintro ⟨n, hmem, hbad⟩
          rcases List.mem_cons.mp hmem with he | hmem'
          · exfalso
            have hn : n = pn := congrArg Prod.snd he
            subst hn
            rcases hbad with hbad | ⟨d', hd', hlt⟩
            · rw [hd] at hbad; cases hbad
            · rw [hd] at hd'
              have : d = d' := Option.some.inj hd'
              subst this
              exact hgt hlt
          · exact ⟨n, hmem', hbad⟩
    | none =>
      rw [hd] at h
      dsimp only at h
      by_cases he : pn.is_end = true
      · rw [if_pos he] at h; cases h
      · rw [if_neg he] at h
        cases hr : distanceRemovals maxLength rest with
        | none => rw [hr] at h; cases h
        | some rs' =>
          rw [hr, Option.map_some'] at h
          cases h
          constructor
          · intro hk
            rcases List.mem_cons.mp hk with heq | hk'
            · subst heq
              exact ⟨pn, List.mem_cons.mpr (Or.inl rfl), Or.inl hd⟩
            · obtain ⟨n, hmem, hbad⟩ := ((ih rs' hr k).mp hk')
              exact ⟨n, List.mem_cons.mpr (Or.inr hmem), hbad⟩
          · rintro ⟨n, hmem, hbad⟩
            rcases List.mem_cons.mp hmem with heq | hmem'
            · exact List.mem_cons.mpr (Or.inl (congrArg Prod.fst heq))
            · exact List.mem_cons.mpr (Or.inr ((ih rs' hr k).mpr ⟨n, hmem', hbad⟩))

lemma nodup_keys_pair_eq {ns : List (ι × NodeO ι)} (hnd : (ns.map Prod.fst).Nodup)
    {k : ι} {n n' : NodeO ι} (h1 : (k, n) ∈ ns) (h2 : (k, n') ∈ ns) : n = n' := by
  induction ns with
  | nil => cases h1
  | cons p rest ih =>
    rw [List.map_cons, List.nodup_cons] at hnd
    rcases List.mem_cons.mp h1 with he1 | h1' <;> rcases List.mem_cons.mp h2 with he2 | h2'
    · exact congrArg Prod.snd (he1.trans he2.symm)
    · exfalso
      apply hnd.1
      rw [← he1]
      exact List.mem_map.mpr ⟨(k, n'), h2', rfl⟩
    · exfalso
      apply hnd.1
      rw [← he2]
      exact List.mem_map.mpr ⟨(k, n), h1', rfl⟩
    · exact ih hnd.2 h1' h2'

/-- C5: the distance-bounded pruning pass removes exactly the nodes that are
unreachable from a start, have no finite distance to rounds, or whose
round-trip lower bound exceeds `max_length`; and it panics (rather than
removing anything) exactly when some end node has no finite distance to
rounds.  The stored `min_distance_to_rounds` measures from the node's *first*
row, i.e. it equals `total_length + lb_distance_to_rounds` (the distance from
the first row *after* the node); the last conjunct restates the removal bound
in the claim's three-term form under that decomposition. -/
theorem remove_nodes_by_distance_spec (g : GraphO ι) (maxLength : Nat)
    (hnd : (g.nodes.map Prod.fst).Nodup) :
    (removeNodesByDistance g maxLength = none ↔
      ∃ p ∈ g.nodes, p.2.is_end = true ∧ p.2.min_distance_to_rounds = none) ∧
    (∀ g', removeNodesByDistance g maxLength = some g' →
      g'.start_nodes = g.start_nodes ∧
      ∀ p : ι × NodeO ι, p ∈ g'.nodes ↔
        (p ∈ g.nodes ∧ ReachableO g p.1 ∧
          ∃ d, p.2.min_distance_to_rounds = some d ∧
            p.2.min_distance_from_rounds + d ≤ maxLength)) ∧
    (∀ (p : ι × NodeO ι) (t : Nat),
      p.2.min_distance_to_rounds = some (p.2.length + t) →
      ((∃ d, p.2.min_distance_to_rounds = some d ∧
          p.2.min_distance_from_rounds + d ≤ maxLength) ↔
        p.2.min_distance_from_rounds + p.2.length + t ≤ maxLength)) := by
  refine ⟨?_, ?_, ?_⟩
  · simp [removeNodesByDistance, Option.map_eq_none', distanceRemovals_none_iff]
  · intro g' h
    unfold removeNodesByDistance at h
    cases hr : distanceRemovals maxLength g.nodes with
    | none => rw [hr] at h; cases h
    | some rs =>
      rw [hr, Option.map_some'] at h
      replace h := Option.some.inj h
      subst h
      refine ⟨rfl, ?_⟩
      intro p
      rw [List.mem_filter]
      constructor
      · rintro ⟨hp, hcond⟩
        obtain ⟨hreach, hnrem⟩ := Bool.and_eq_true_iff.mp hcond
        have hreach' : ReachableO g p.1 :=
          (exploreStack_spec g p.1).mp (of_decide_eq_true hreach)
        have hnotin : p.1 ∉ rs := by
          intro hin
          rw [Bool.not_eq_true', decide_eq_false_iff_not] at hnrem
          exact hnrem hin
        refine ⟨hp, hreach', ?_⟩
        have hnobad : ¬ (p.2.min_distance_to_rounds = none ∨
            ∃ d, p.2.min_distance_to_rounds = some d ∧
              maxLength < p.2.min_distance_from_rounds + d) := by
          intro hbad
          exact hnotin ((distanceRemovals_mem maxLength g.nodes rs hr p.1).mpr
            ⟨p.2, by rw [Prod.mk.eta]; exact hp, hbad⟩)
        push_neg at hnobad
        obtain ⟨hne, hnover⟩ := hnobad
        cases hdd : p.2.min_distance_to_rounds with
        | none => exact absurd hdd hne
        | some d => exact ⟨d, rfl, hnover d hdd⟩
      · rintro ⟨hp, hreach, d, hd, hle⟩
        refine ⟨hp, ?_⟩
        rw [Bool.and_eq_true_iff]
        refine ⟨decide_eq_true ((exploreStack_spec g p.1).mpr hreach), ?_⟩
        rw [Bool.not_eq_true', decide_eq_false_iff_not]
        intro hin
        obtain ⟨n, hmem, hbad⟩ := (distanceRemovals_mem maxLength g.nodes rs hr p.1).mp hin
        have hn : n = p.2 :=
          nodup_keys_pair_eq hnd hmem (by rw [Prod.mk.eta]; exact hp)
        subst hn
        rcases hbad with hbad | ⟨d', hd', hlt⟩
        · rw [hd] at hbad; cases hbad
        · rw [hd] at hd'
          have : d = d' := Option.some.inj hd'
          subst this
          exact absurd hlt (Nat.not_lt.mpr hle)
  · intro p t hdec
    rw [hdec]
    constructor
    · rintro ⟨d, hd, hle⟩
      have : p.2.length + t = d := Option.some.inj hd
      omega
    · intro hle
      exact ⟨p.2.length + t, rfl, by omega⟩

/-- A one-node graph whose only node is an end with no finite distance to
rounds: the pruning pass must panic on it. -/
def gBad : GraphO Nat :=
  ⟨[(0, ⟨none, some 0, 1, 0, [], 0, none, [], []⟩)], [0]⟩

/-- Witness for `remove_nodes_by_distance_spec`: the pass panics on `gBad`. -/
theorem remove_nodes_by_distance_spec_witness :
    removeNodesByDistance gBad 3 = none := by
  have h := (remove_nodes_by_distance_spec gBad 3 (by decide)).1
  exact h.mpr ⟨(0, ⟨none, some 0, 1, 0, [], 0, none, [], []⟩), by decide, by decide, rfl⟩

/-- `SuccSortStrat` from the old `spec::Config`. -/
inductive SuccSortStrat where
  | max
  | average
deriving DecidableEq, Repr

/-- The fields of the old `Config` read by `sort_successors`. -/
structure ConfigO where
  successor_link_sort_depth : Nat
  successor_link_sort_strategy : SuccSortStrat
deriving DecidableEq, Repr

/-- `combine_node_scores` from `Graph::sort_successors`
(`src/.old/monument/src/graph/mod.rs`): maximum (or zero on an empty set) for
`Max`; the arithmetic mean (zero when there are no successors) for
`Average`. -/
def combine_node_scores (vs : List Int) (num_successors : Nat)
    (strat : SuccSortStrat) : Int :=
  match strat with
  | SuccSortStrat.max => (vs.max?).getD 0
  | SuccSortStrat.average =>
    if num_successors = 0 then 0 else vs.sum / (num_successors : Int)

/-- The initial back buffer of `sort_successors` (`scores_at_i_minus_1` before
the loop): each node's own score total.  Ids outside the map are never looked
up by the source (its `unwrap` would panic); they are totalised to `0`. -/
def scoresInit (g : GraphO ι) : ι → Int := fun id =>
  match g.find id with
  | some n => n.score_total
  | none => 0

/-- One buffer update of the `for _i in 2..=depth` loop of `sort_successors`:
`reachable_score = node.score.total + combine(buffer over successors)`. -/
def scoresStep (g : GraphO ι) (strat : SuccSortStrat) (f : ι → Int) : ι → Int :=
  fun id =>
    match g.find id with
    | some n =>
      n.score_total +
        combine_node_scores (n.successors.map (fun s => f s.2))
          n.successors.length strat
    | none => 0

/-- The key `sort_successors` finally sorts by: the loop
`for _i in 2..=depth` performs `depth - 1` buffer updates and the sort reads
the back buffer. -/
def sortKey (g : GraphO ι) (strat : SuccSortStrat) (depth : Nat) : ι → Int :=
  (scoresStep g strat)^[depth - 1] (scoresInit g)

/-- Stable insertion by a boolean "goes-before" relation: `a` is placed
before the first element it relates to. -/
def insertStable {α : Type _} (le : α → α → Bool) (a : α) : List α → List α
  | [] => [a]
  | b :: rest => if le a b then a :: b :: rest else b :: insertStable le a rest

/-- A stable sort, modelling `Vec::sort_by` (Rust's sort is stable; every
stable sort by the same comparator produces the same list). -/
def sortByStable {α : Type _} (le : α → α → Bool) : List α → List α
  | [] => []
  | a :: rest => insertStable le a (sortByStable le rest)

/-- Sort every node's successor list in stable descending order of
`key (target)` — the reversed comparator of the source's `sort_by`. -/
def sortSuccessorsByKey (g : GraphO ι) (key : ι → Int) : GraphO ι :=
  { g with nodes := g.nodes.map (fun p => (p.1,
      { p.2 with successors :=
          sortByStable (fun a b => decide (key b.2 ≤ key a.2)) p.2.successors })) }

/-- `Graph::sort_successors` (`src/.old/monument/src/graph/mod.rs`): depth 0
disables sorting; otherwise each node's successor list is stably sorted in
descending order of the final buffer's score of the link target. -/
def sortSuccessors (g : GraphO ι) (config : ConfigO) : GraphO ι :=
  if config.successor_link_sort_depth = 0 then g
  else
    sortSuccessorsByKey g
      (sortKey g config.successor_link_sort_strategy config.successor_link_sort_depth)

/-- The claim's score iteration, written from the spec's words for comparison
with the code: `S_0(n) = n.music.total` and
`S_i(n) = n.music.total + combine(S_{i−1} over successors)`. -/
def scoresSpecS (g : GraphO ι) (strat : SuccSortStrat) : Nat → ι → Int
  | 0 => scoresInit g
  | i + 1 => scoresStep g strat (scoresSpecS g strat i)

/-- `sort_successors` as the claim describes it, written from the spec's
words for comparison with the code: sort descending by `S_D(target)` where
`D` is the configured depth. -/
def sortSuccessorsSpec (g : GraphO ι) (config : ConfigO) : GraphO ι :=
  if config.successor_link_sort_depth = 0 then g
  else
    sortSuccessorsByKey g
      (scoresSpecS g config.successor_link_sort_strategy config.successor_link_sort_depth)

lemma sortKey_eq_scoresSpecS (g : GraphO ι) (strat : SuccSortStrat) :
    ∀ d : Nat, sortKey g strat (d + 1) = scoresSpecS g strat d := by
  intro d
  induction d with
  | zero => rfl
  | succ d ih =>
    show (scoresStep g strat)^[d + 1] (scoresInit g) = _
    rw [Function.iterate_succ_apply']
    exact congrArg (scoresStep g strat) ih

lemma insertStable_perm {α : Type _} (le : α → α → Bool) (a : α) (l : List α) :
    List.Perm (insertStable le a l) (a :: l) := by
  induction l with
  | nil => exact List.Perm.refl _
  | cons b rest ih =>
    unfold insertStable
    split
    · exact List.Perm.refl _
    · exact ((ih.cons b).trans (List.Perm.swap a b rest))

lemma sortByStable_perm {α : Type _} (le : α → α → Bool) (l : List α) :
    List.Perm (sortByStable le l) l := by
  induction l with
  | nil => exact List.Perm.refl _
  | cons a rest ih =>
    exact (insertStable_perm le a (sortByStable le rest)).trans (ih.cons a)

lemma insertStable_sorted_key {α : Type _} (key : α → Int) (a : α) (l : List α)
    (hl : List.Pairwise (fun x y => key y ≤ key x) l) :
    List.Pairwise (fun x y => key y ≤ key x)
      (insertStable (fun x y => decide (key y ≤ key x)) a l) := by
  induction l with
  | nil => exact List.pairwise_singleton _ a
  | cons b rest ih =>
    rw [List.pairwise_cons] at hl
    unfold insertStable
    split
    · next hab =>
      have hba : key b ≤ key a := of_decide_eq_true hab
      rw [List.pairwise_cons]
      refine ⟨?_, List.pairwise_cons.mpr hl⟩
      intro y hy
      rcases List.mem_cons.mp hy with he | hy'
      · subst he; exact hba
      · exact le_trans (hl.1 y hy') hba
    · next hab =>
      have hnba : ¬ key b ≤ key a := fun hc => hab (decide_eq_true hc)
      have hba : key a ≤ key b := le_of_lt (lt_of_not_le hnba)
      rw [List.pairwise_cons]
      refine ⟨?_, ih hl.2⟩
      intro y hy
      have hy' : y ∈ a :: rest :=
        (insertStable_perm (fun x y => decide (key y ≤ key x)) a rest).mem_iff.mp hy
      rcases List.mem_cons.mp hy' with he | hy''
      · subst he; exact hba
      · exact hl.1 y hy''

lemma sortByStable_sorted_key {α : Type _} (key : α → Int) (l : List α) :
    List.Pairwise (fun x y => key y ≤ key x)
      (sortByStable (fun x y => decide (key y ≤ key x)) l) := by
  induction l with
  | nil => exact List.Pairwise.nil
  | cons a rest ih => exact insertStable_sorted_key key a _ ih

/-- C6 (amended): with depth `D = 0`, `sort_successors` leaves every successor
list unchanged; with depth `D = d + 1` the DP loop performs only `d = D − 1`
buffer updates, so each successor list is stably sorted in descending order of
`S_{D−1}(target)` — not `S_D(target)` as the claim states.  The last conjunct
verifies that the stable sort really sorts: its output is a permutation of its
input and is pairwise descending in the key. -/
theorem sort_successors_spec (g : GraphO ι) (config : ConfigO) :
    (config.successor_link_sort_depth = 0 → sortSuccessors g config = g) ∧
    (∀ d : Nat, config.successor_link_sort_depth = d + 1 →
      (∀ id, sortKey g config.successor_link_sort_strategy (d + 1) id =
        scoresSpecS g config.successor_link_sort_strategy d id) ∧
      sortSuccessors g config =
        sortSuccessorsByKey g
          (scoresSpecS g config.successor_link_sort_strategy d)) ∧
    (∀ (key : ι → Int) (l : List (Nat × ι)),
      List.Perm (sortByStable (fun a b => decide (key b.2 ≤ key a.2)) l) l ∧
      List.Pairwise (fun a b => key b.2 ≤ key a.2)
        (sortByStable (fun a b => decide (key b.2 ≤ key a.2)) l)) := by
  obtain ⟨depth, strat⟩ := config
  refine ⟨?_, ?_, ?_⟩
  · intro h
    dsimp only at h
    subst h
    rfl
  · intro d hd
    dsimp only at hd
    subst hd
    refine ⟨fun id => congrFun (sortKey_eq_scoresSpecS g strat d) id, ?_⟩
    unfold sortSuccessors
    rw [if_neg (Nat.succ_ne_zero d)]
    dsimp only
    rw [sortKey_eq_scoresSpecS g strat d]
  · intro key l
    exact ⟨sortByStable_perm _ l, sortByStable_sorted_key (fun p => key p.2) l⟩

/-- Witness for `sort_successors_spec`: depth 0 leaves `gBad` unchanged. -/
theorem sort_successors_spec_witness :
    sortSuccessors gBad ⟨0, SuccSortStrat.max⟩ = gBad :=
  (sort_successors_spec gBad ⟨0, SuccSortStrat.max⟩).1 rfl

/-- A branch point for the sort: node `0` has successors `1` (own score 0,
but a score-100 node behind it) and `2` (own score 1, no successors). -/
def gSort : GraphO Nat :=
  ⟨[(0, ⟨some 0, none, 1, 0, [], 0, some 1, [(0, 1), (0, 2)], []⟩),
    (1, ⟨none, none, 1, 0, [], 0, some 1, [(0, 3)], []⟩),
    (2, ⟨none, some 0, 1, 1, [], 0, some 1, [], []⟩),
    (3, ⟨none, some 0, 1, 100, [], 0, some 1, [], []⟩)], [0]⟩

/-- Counterexample to C6 as stated: with depth 1 and strategy `Max` on
`gSort`, the code sorts node 0's successors by the targets' own totals
(`S_0`: node 2 first), while the claim's `S_1` key would put node 1 first
(`S_1(1) = 0 + max {100} = 100 > S_1(2) = 1`); the two results differ. -/
theorem sort_successors_counterexample :
    sortSuccessors gSort ⟨1, SuccSortStrat.max⟩ ≠
      sortSuccessorsSpec gSort ⟨1, SuccSortStrat.max⟩ := by decide

/-- The header fields of a compact-graph node
(`PtrNode` in `src/.old/monument/src/compose/graph.rs`) that carry plain
data: the trailing pointer array is represented by the counts that describe
it (`num_successors` successor slots then `num_false_nodes` falseness slots)
together with the out-of-line `link_map`. -/
structure PtrNodeC where
  length : Nat
  score : Int
  num_successors : Nat
  num_false_nodes : Nat
  link_map : List Nat
deriving DecidableEq, Repr

/-- `PtrNode::is_end` (`src/.old/monument/src/compose/graph.rs`):
a compact node is an end iff it has no successors. -/
def PtrNodeC.is_end (n : PtrNodeC) : Bool := n.num_successors == 0

/-- `PtrNode::blank` plus the link-map fill for one prototype node: the
header copies the length and score and stores the successor/falseness counts;
`link_map` records each successor's original layout link index. -/
def mkPtrNode (n : NodeO ι) : PtrNodeC :=
  { length := n.length,
    score := n.score_total,
    num_successors := n.successors.length,
    num_false_nodes := n.false_nodes.length,
    link_map := n.successors.map Prod.fst }

/-- The plain-data part of `PtrGraph`. -/
structure PtrGraphC (ι : Type _) where
  nodes : List (ι × PtrNodeC)
  start_nodes : List (Nat × ι)
deriving DecidableEq, Repr

/-- `PtrGraph::from_prototype` (`src/.old/monument/src/compose/graph.rs`):
first assert `successors.is_empty() ⇔ is_end` for every prototype node
(`none` models the failed `assert_eq!`), then build one compact node per
prototype node and collect the start-index map from `start_idx`. -/
def fromPrototype (g : GraphO ι) : Option (PtrGraphC ι) :=
  if g.nodes.all (fun p => p.2.successors.isEmpty == p.2.is_end) then
    some { nodes := g.nodes.map (fun p => (p.1, mkPtrNode p.2)),
           start_nodes := g.nodes.filterMap
             (fun p => p.2.start_idx.map (fun idx => (idx, p.1))) }
  else none

/-- C8: building the compact graph panics exactly when some prototype node
violates `successors.is_empty() ⇔ is_end`; on success the compact graph has
one node per prototype node and `is_end` (defined as `num_successors == 0`)
holds for a compact node iff its prototype node was an end node. -/
theorem from_prototype_end_characterisation (g : GraphO ι) :
    (fromPrototype g = none ↔
      ∃ p ∈ g.nodes, p.2.successors.isEmpty ≠ p.2.is_end) ∧
    (∀ cg, fromPrototype g = some cg →
      cg.nodes = g.nodes.map (fun p => (p.1, mkPtrNode p.2)) ∧
      ∀ p ∈ g.nodes, ((mkPtrNode p.2).is_end = true ↔ p.2.end_idx.isSome = true)) := by
  constructor
  · unfold fromPrototype
    by_cases hall : g.nodes.all (fun p => p.2.successors.isEmpty == p.2.is_end)
    · rw [if_pos hall]
      simp only [List.all_eq_true, beq_iff_eq] at hall
      constructor
      · intro hc; cases hc
      · rintro ⟨p, hp, hne⟩
        exact absurd (hall p hp) hne
    · rw [if_neg hall]
      simp only [List.all_eq_true, beq_iff_eq] at hall
      push_neg at hall
      obtain ⟨p, hp, hne⟩ := hall
      exact ⟨fun _ => ⟨p, hp, hne⟩, fun _ => rfl⟩
  · intro cg h
    unfold fromPrototype at h
    by_cases hall : g.nodes.all (fun p => p.2.successors.isEmpty == p.2.is_end)
    · rw [if_pos hall] at h
      replace h := Option.some.inj h
      subst h
      refine ⟨rfl, ?_⟩
      simp only [List.all_eq_true, beq_iff_eq] at hall
      intro p hp
      have he := hall p hp
      unfold PtrNodeC.is_end mkPtrNode NodeO.is_end at *
      constructor
      · intro hz
        rw [← he]
        simpa [List.isEmpty_iff_length_eq_zero] using hz
      · intro hend
        rw [hend] at he
        simpa [List.isEmpty_iff_length_eq_zero] using he
    · rw [if_neg hall] at h
      cases h

/-- A well-formed prototype graph: node `0` links to the end node `1`. -/
def gProto : GraphO Nat :=
  ⟨[(0, ⟨some 0, none, 2, 0, [], 0, some 3, [(0, 1)], []⟩),
    (1, ⟨none, some 0, 1, 0, [], 2, some 1, [], [0]⟩)], [0]⟩

/-- Witness for `from_prototype_end_characterisation` on `gProto`: the
compact node built from `gProto`'s end node is recognised by `is_end`. -/
theorem from_prototype_end_characterisation_witness :
    (mkPtrNode (⟨none, some 0, 1, 0, [], 2, some 1, [], [0]⟩ : NodeO Nat)).is_end =
      true := by
  have h := (from_prototype_end_characterisation gProto).2
    ⟨gProto.nodes.map (fun p => (p.1, mkPtrNode p.2)),
      gProto.nodes.filterMap (fun p => p.2.start_idx.map (fun idx => (idx, p.1)))⟩
    (by decide)
  exact (h.2 (1, ⟨none, some 0, 1, 0, [], 2, some 1, [], [0]⟩) (by decide)).mpr (by decide)

end MonumentOld

namespace MonumentQuery

/-- The field of `Query` (`src/monument/src/lib.rs`) read by
`Query::unoptimised_graph`: the half-open `len_range : Range<usize>`,
modelled as its two bounds. -/
structure QueryQ where
  len_range_start : Nat
  len_range_end : Nat
deriving DecidableEq, Repr

/-- Rust `usize` subtraction with its overflow check: `none` models the
underflow panic. -/
def usizeSub (a b : Nat) : Option Nat := if b ≤ a then some (a - b) else none

/-- The `max_length` that `Query::unoptimised_graph`
(`src/monument/src/lib.rs`) passes to `Graph::from_layout` at the start of
`run_query`: `self.len_range.end - 1` — the `- 1` makes the length limit an
inclusive bound, with no guard on `len_range.end = 0`. -/
def unoptimisedGraphMaxLength (q : QueryQ) : Option Nat :=
  usizeSub q.len_range_end 1

/-- C10: `run_query` computes the internal inclusive length cap as
`len_range.end − 1` with an unguarded usize subtraction, so it requires
`len_range.end ≥ 1`: for `len_range.end = 0` the subtraction underflows
(panics) instead of producing an empty result set, and for
`len_range.end = n + 1` the cap is `n`. -/
theorem unoptimised_graph_len_cap (q : QueryQ) :
    (q.len_range_end = 0 → unoptimisedGraphMaxLength q = none) ∧
    (∀ n : Nat, q.len_range_end = n + 1 → unoptimisedGraphMaxLength q = some n) := by
  constructor
  · intro h
    simp [unoptimisedGraphMaxLength, usizeSub, h]
  · intro n h
    simp [unoptimisedGraphMaxLength, usizeSub, h]

/-- Witness for `unoptimised_graph_len_cap`: a query with `len_range = 0..0`
panics during the graph build. -/
theorem unoptimised_graph_len_cap_witness :
    unoptimisedGraphMaxLength ⟨0, 0⟩ = none :=
  (unoptimised_graph_len_cap ⟨0, 0⟩).1 rfl

end MonumentQuery
